import Mathlib

/-!
# Verification of the fixed-point decimal core of `full-utils`

A shallow embedding of the `num/` family of the library: the decimal
component normalizer (`normalizeToDecimalComponents`), the exponential
notation expander (`convertExponentialToParts`), the fixed-decimal builder
(`parseToFixedDecimal`), rounding (`roundFixedDecimal`), scale adjustment
(`changeFixedDecimalScale`), the renderers (`fixedDecimalToStr`,
`fixedDecimalToNum`) and the composite wrappers (`formatToNum`,
`numNormalize`).

Modelling conventions:
* JavaScript strings are `String` / `List Char`; `BigInt` values that are
  always non-negative in the pipeline are `Nat`; the `scale` field, which
  the scale-change operation can drive below zero, is `Int`.
* `throw new Error(msg)` is `Except.error msg`; the error message strings
  are carried verbatim.
* A JavaScript `number` input is modelled at the boundary: either one of
  the non-finite values (`NaN`, `Infinity`, `-Infinity`) or a finite value
  carried as its sign (`input < 0`) together with the character string that
  `Math.abs(input).toExponential(30)` renders to.  The IEEE-754 rendering
  itself is outside the embedding; the pipeline only consumes its output.
* `Number(string)` applied to the exact decimal strings produced by
  `fixedDecimalToStr` is modelled as the exact rational value of that
  string (`jsNumberRat`); the final IEEE rounding step is not modelled.
* Regular expressions are embedded as their deterministic matchers, which
  is faithful because both patterns used by the source are anchored and
  backtracking-free (character classes of consecutive atoms are disjoint).
-/

namespace FullUtils

/-! ## Characters and digit strings -/

/-- The character class `[0-9]` of the source's regular expressions. -/
def isDigitChar (c : Char) : Bool :=
  decide (48 ≤ c.toNat) && decide (c.toNat ≤ 57)

/-- Numeric value of a decimal digit character. -/
def charVal (c : Char) : Nat := c.toNat - 48

/-- The decimal digit character of a value below ten (used to embed
`BigInt.toString`); total, with a dummy value elsewhere. -/
def digitChar (d : Nat) : Char :=
  match d with
  | 0 => '0' | 1 => '1' | 2 => '2' | 3 => '3' | 4 => '4'
  | 5 => '5' | 6 => '6' | 7 => '7' | 8 => '8' | 9 => '9'
  | _ => '*'

/-- Value of a big-endian list of digit values (Horner evaluation). -/
def natOfVals (L : List Nat) : Nat :=
  L.foldl (fun a d => a * 10 + d) 0

/-- Value of a big-endian string of digit characters: the embedding of
`BigInt(digitString)` on all-digit strings. -/
def natOfDigitChars (l : List Char) : Nat :=
  natOfVals (l.map charVal)

/-- Little-endian base-10 digits, by explicit fuel so that the kernel can
evaluate it (`fuel ≥ n` suffices). -/
def natDigitsAux : Nat → Nat → List Nat
  | 0, _ => []
  | fuel + 1, n => if n = 0 then [] else n % 10 :: natDigitsAux fuel (n / 10)

/-- Little-endian base-10 digits of `n`. -/
def natDigitsLE (n : Nat) : List Nat := natDigitsAux n n

/-- The decimal rendering of a natural number: the embedding of
`BigInt.toString` (and of `String(n)` on non-negative integers). -/
def natToChars (n : Nat) : List Char :=
  if n = 0 then ['0'] else ((natDigitsLE n).reverse).map digitChar

/-- The plain decimal rendering of an integer (sign, then digits). -/
def intToChars (z : Int) : List Char :=
  if z < 0 then '-' :: natToChars z.natAbs else natToChars z.natAbs

/-- Binary length of a natural number, by explicit fuel (`fuel ≥ n`
suffices) so that the kernel can evaluate it. -/
def bitLenAux : Nat → Nat → Nat
  | 0, _ => 0
  | fuel + 1, n => if n = 0 then 0 else bitLenAux fuel (n / 2) + 1

/-- Binary length of `n`: the least `b` with `n < 2 ^ b`. -/
def bitLen (n : Nat) : Nat := bitLenAux n n

/-- Round a non-negative integer to the nearest IEEE-754 double
(53-bit significand, ties to even), returned as its exact integer value.
Every integer up to `2 ^ 53` is exactly representable, so the function is
the identity there; above, the value is truncated to its top 53 bits and
the dropped remainder is rounded to nearest, ties to the even candidate.
(Overflow to `Infinity` starts near `1.8e308`; no value of that size is
reached by a theorem of this development, and it is not modelled.) -/
def roundDoubleNat (n : Nat) : Nat :=
  if n ≤ 2 ^ 53 then n
  else
    let k := bitLen n - 53
    let q := n / 2 ^ k
    let r := n % 2 ^ k
    let h := 2 ^ (k - 1)
    (if h < r ∨ (r = h ∧ q % 2 = 1) then q + 1 else q) * 2 ^ k

/-! ## JavaScript string primitives -/

/-- The whitespace class of JavaScript `String.prototype.trim`. -/
def jsWhitespaceB (c : Char) : Bool :=
  [' ', '\t', '\n', '\r', '\x0b', '\x0c', ' ', ' ', ' ',
   ' ', ' ', ' ', ' ', ' ', ' ', ' ',
   ' ', ' ', ' ', ' ', ' ', ' ', ' ',
   '　', '﻿'].contains c

/-- `s.trim()`. -/
def jsTrim (l : List Char) : List Char :=
  ((l.dropWhile jsWhitespaceB).reverse.dropWhile jsWhitespaceB).reverse

/-- `s.replace(',', '.')`: JavaScript `replace` with a string pattern
replaces only the first occurrence. -/
def replaceFirstComma (l : List Char) : List Char :=
  let rest := l.dropWhile (fun c => c != ',')
  if rest.isEmpty then l
  else l.takeWhile (fun c => c != ',') ++ '.' :: rest.tail

/-- The sign-consumption step of the string branch of the normalizer:
`startsWith('+') || startsWith('-')` recorded as `1`/`-1`, then `slice(1)`. -/
def consumeSign (l : List Char) : Int × List Char :=
  if l.head? = some '+' || l.head? = some '-' then
    (if l.head? = some '-' then -1 else 1, l.tail)
  else (1, l)

/-- `/e/i.test(s)`. -/
def containsE (l : List Char) : Bool :=
  l.any (fun c => c == 'e' || c == 'E')

/-- `s.split('.')` restricted to its first two fields, as consumed by the
destructurings `[a, b = ''] = s.split('.')` of the source: the text before
the first dot and, when a dot is present, the text between the first dot
and the following dot (or the end). -/
def splitFirstDot (l : List Char) : List Char × Option (List Char) :=
  let rest := l.dropWhile (fun c => c != '.')
  if rest.isEmpty then (l, none)
  else (l.takeWhile (fun c => c != '.'), some (rest.tail.takeWhile (fun c => c != '.')))

/-- `s.split(/e/i)` restricted to its first two fields, as consumed by the
destructuring `[coefficient, exponentText] = s.split(/e/i)`. -/
def splitFirstE (l : List Char) : List Char × Option (List Char) :=
  let rest := l.dropWhile (fun c => !(c == 'e' || c == 'E'))
  if rest.isEmpty then (l, none)
  else (l.takeWhile (fun c => !(c == 'e' || c == 'E')),
        some (rest.tail.takeWhile (fun c => !(c == 'e' || c == 'E'))))

/-- `parseInt(s, 10)`, `none` standing for `NaN`: leading whitespace is
skipped, an optional sign and a leading digit run are read, trailing text
is ignored, and no digits at all give `NaN`. The result is a JavaScript
`number`, so the mathematical value of the digit run is rounded to the
nearest double (`roundDoubleNat`); below `2 ^ 53` the parse is exact. -/
def jsParseInt (l : List Char) : Option Int :=
  let t := l.dropWhile jsWhitespaceB
  let signAndRest : Bool × List Char :=
    if t.head? = some '+' || t.head? = some '-' then (t.head? = some '-', t.tail)
    else (false, t)
  let ds := signAndRest.2.takeWhile isDigitChar
  if ds.isEmpty then none
  else some ((if signAndRest.1 then -1 else 1) * (roundDoubleNat (natOfDigitChars ds) : Int))

/-! ## The two regular expressions of the source -/

/-- Tail of an exponent: `[+\-]?[0-9]+$` (after the `e`/`E` marker) of the
outer pattern `/^[0-9]*\.?[0-9]*(e[+\-]?[0-9]+)?$/i`. -/
def expTailOk (l : List Char) : Bool :=
  let body : List Char :=
    if l.head? = some '+' || l.head? = some '-' then l.tail else l
  !body.isEmpty && body.all isDigitChar

/-- The deterministic matcher of the anchored numeric-grammar pattern
`/^[0-9]*\.?[0-9]*(e[+\-]?[0-9]+)?$/i` of the normalizer's string branch. -/
def matchesNumGrammar (l : List Char) : Bool :=
  let r1 := l.dropWhile isDigitChar
  let r2 : List Char := if r1.head? = some '.' then r1.tail else r1
  let r3 := r2.dropWhile isDigitChar
  if r3.isEmpty then true
  else if r3.head? = some 'e' || r3.head? = some 'E' then expTailOk r3.tail
  else false

/-- Exponent field of the expander's inner pattern: `[+\-]?[0-9]+` up to
the end of the string, with the value of the source's
`parseInt(match[3], 10)` on the matched text — a double, hence rounded
through `roundDoubleNat` like every `parseInt` result. -/
def parseExpTail (l : List Char) : Option Int :=
  let signAndRest : Bool × List Char :=
    if l.head? = some '+' || l.head? = some '-' then (l.head? = some '-', l.tail)
    else (false, l)
  let ds := signAndRest.2.takeWhile isDigitChar
  if ds.isEmpty || !(signAndRest.2.dropWhile isDigitChar).isEmpty then none
  else some ((if signAndRest.1 then -1 else 1) * (roundDoubleNat (natOfDigitChars ds) : Int))

/-- The deterministic matcher of the expander's inner anchored pattern
`/^([0-9]+)(?:\.([0-9]*))?e([+\-]?[0-9]+)$/i`: the coefficient digits, the
optional fraction digits, and the value of the exponent field. -/
def innerMatch (l : List Char) : Option (List Char × List Char × Int) :=
  let d1 := l.takeWhile isDigitChar
  let r1 := l.dropWhile isDigitChar
  if d1.isEmpty then none
  else
    let fracAndRest : List Char × List Char :=
      if r1.head? = some '.' then (r1.tail.takeWhile isDigitChar, r1.tail.dropWhile isDigitChar)
      else ([], r1)
    if fracAndRest.2.head? = some 'e' || fracAndRest.2.head? = some 'E' then
      (parseExpTail fracAndRest.2.tail).map (fun z => (d1, fracAndRest.1, z))
    else none

/-! ## Data model -/

/-- The sole persistent entity of the core (`num/types.ts`): `sign` is
`1` or `-1`, `digitsInteger` holds all significant digits (a `BigInt`
that is non-negative everywhere in the pipeline, hence `Nat`), and
`scale` counts fractional digits (`Int`, because the scale-change
operation can drive it below zero). -/
structure FixedDecimal where
  sign : Int
  digitsInteger : Nat
  scale : Int
  deriving DecidableEq

/-- The transient triple passed from the normalizer to the builder. -/
structure DecimalComponents where
  sign : Int
  integerPart : List Char
  fractionalPart : List Char
  deriving DecidableEq

/-- A JavaScript `number` at the boundary of the embedding: one of the
three non-finite values, or a finite value carried as the pair of its
sign test `input < 0` and the digit text `Math.abs(input).toExponential(30)`. -/
inductive JSNum where
  | nan : JSNum
  | posInf : JSNum
  | negInf : JSNum
  | finite (isNeg : Bool) (exp30 : List Char) : JSNum
  deriving DecidableEq

/-- `Number.isFinite`. -/
def jsIsFinite (x : JSNum) : Bool :=
  match x with
  | .finite _ _ => true
  | _ => false

/-- The `unknown` input of the parsing entry point: a `bigint`, a
`number`, a `string`, or a value of any other type (all of which the
normalizer treats alike). -/
inductive JSInput where
  | bigint (n : Int) : JSInput
  | num (x : JSNum) : JSInput
  | str (s : String) : JSInput
  | other : JSInput

deriving instance DecidableEq for Except

/-- The rounding modes of `roundFixedDecimal`. -/
inductive RoundMode where
  | halfUp : RoundMode
  | trunc : RoundMode
  deriving DecidableEq

/-! ## The pipeline (`num/` family) -/

/-- `isNumPZ` of `is/isNumPZ.ts` (`isNum(value) && value >= 0`) applied to
the exponent, which in the embedding is always a finite integer. -/
def isNumPZ (z : Int) : Bool := decide (0 ≤ z)

/-- Strip leading `'0'` characters: `s.replace(/^0+/, '')`. -/
def stripLeadingZeros (l : List Char) : List Char :=
  l.dropWhile (fun c => c == '0')

/-- Strip trailing `'0'` characters: `s.replace(/0+$/, '')`. -/
def stripTrailingZeros (l : List Char) : List Char :=
  (l.reverse.dropWhile (fun c => c == '0')).reverse

/-- ECMAScript exponential notation for an integer-valued number `v` of
magnitude at least `10 ^ 21`: `d[.ddd]e+K` built from significant digits
and the decimal magnitude `K`. The significant digits are modelled as the
decimal digits of `v` with trailing zeros stripped; ECMAScript uses the
shortest digit sequence that round-trips through the double, which
coincides with this whenever those digits are themselves shortest (so at
`±10 ^ 21`, the only such value a theorem of this development evaluates),
and in every case the rendered text contains `'e'` and `'+'` — the only
property of it the pipeline observes, since the expander's inner pattern
rejects any exponent field holding them. -/
def jsExpNotationChars (v : Int) : List Char :=
  let ds := natToChars v.natAbs
  let sd := stripTrailingZeros ds
  (if v < 0 then ['-'] else []) ++
    sd.take 1 ++ (if sd.length ≤ 1 then [] else '.' :: sd.drop 1) ++
    'e' :: '+' :: natToChars (ds.length - 1)

/-- The template interpolation `${v}` of an integer-valued JavaScript
number: plain decimal digits while the magnitude stays below `10 ^ 21`,
exponential notation from `10 ^ 21` on (ECMAScript `Number::toString`). -/
def jsNumToChars (v : Int) : List Char :=
  if v.natAbs < 10 ^ 21 then intToChars v else jsExpNotationChars v

/-- The normalized text rebuilt by the expander's inner helper: the
coefficient digits with leading zeros stripped (`"0"` when none remain),
then `'e'`, then the adjusted exponent — or the text `NaN` when
`parseInt` failed (`none`), exactly as the source interpolates it.
The adjustment `z - fp.length` is a double subtraction in the source; it
is exact whenever `|z| ≤ 2 ^ 53` or the fraction is empty, which covers
every evaluation performed by a theorem of this development. -/
def expConstructed (exponentialString : List Char) : List Char :=
  let coeffAndExp := splitFirstE exponentialString
  let ipAndFp := splitFirstDot coeffAndExp.1
  let fp := ipAndFp.2.getD []
  let allDigits := stripLeadingZeros ipAndFp.1 ++ fp
  let exponentValue : Option Int := (coeffAndExp.2.bind jsParseInt).map (fun z => z - fp.length)
  (if allDigits.isEmpty then ['0'] else allDigits) ++
    'e' :: (match exponentValue with
            | none => ['N', 'a', 'N']
            | some z => jsNumToChars z)

/-- The digit-shifting tail of the expander, applied to the inner-pattern
match `m = (coefficient digits, fraction digits, exponent value)`: append
zeros for a non-negative exponent, otherwise split or left-pad the digit
string. -/
def expandParts (sign : Int) (m : List Char × List Char × Int) : DecimalComponents :=
  let allDigitsM := m.1
  let exponent := m.2.2
  if isNumPZ exponent then
    let widened := allDigitsM ++ List.replicate exponent.toNat '0'
    ⟨sign, if widened.isEmpty then ['0'] else widened, []⟩
  else
    let digitsToLeft := (-exponent).toNat
    if allDigitsM.length ≤ digitsToLeft then
      ⟨sign, ['0'], List.replicate (digitsToLeft - allDigitsM.length) '0' ++ allDigitsM⟩
    else
      ⟨sign, allDigitsM.take (allDigitsM.length - digitsToLeft),
       allDigitsM.drop (allDigitsM.length - digitsToLeft)⟩

/-- `convertExponentialToParts` of `num/convertExponentialToParts.ts`:
normalize the coefficient and exponent of `exponentialString`, re-match the
normalized text against the inner pattern, and expand the exponent by pure
digit-string shifting. -/
def convertExponentialToParts (sign : Int) (exponentialString : List Char) :
    Except String DecimalComponents :=
  match innerMatch (expConstructed exponentialString) with
  | none => .error "Failed to parse exponential notation."
  | some m => .ok (expandParts sign m)

/-- The processed text of the normalizer's string branch:
`input.trim().replace(',', '.')`. -/
def processedOf (s : String) : List Char :=
  replaceFirstComma (jsTrim s.data)

/-- `normalizeToDecimalComponents` of `num/normalizeToDecimalComponents.ts`. -/
def normalizeToDecimalComponents (input : JSInput) : Except String DecimalComponents :=
  match input with
  | .bigint n =>
    .ok ⟨if n < 0 then -1 else 1, natToChars n.natAbs, []⟩
  | .num x =>
    match x with
    | .finite isNeg exp30 =>
      convertExponentialToParts (if isNeg then -1 else 1) exp30
    | _ => .error "Input number is not finite."
  | .str s =>
    let processed := processedOf s
    if processed.isEmpty then .error "Input string is empty."
    else
      let signAndRest := consumeSign processed
      if matchesNumGrammar signAndRest.2 then
        if containsE signAndRest.2 then
          convertExponentialToParts signAndRest.1 signAndRest.2
        else
          let ipAndFp := splitFirstDot signAndRest.2
          .ok ⟨signAndRest.1, ipAndFp.1, ipAndFp.2.getD []⟩
      else .error "Invalid numeric string."
  | .other => .error "Unsupported input type."

/-- The `integerDigits` constant of the builder:
`integerPart.replace(/^0+/, '') || '0'`. -/
def integerDigitsOf (c : DecimalComponents) : List Char :=
  if (stripLeadingZeros c.integerPart).isEmpty then ['0']
  else stripLeadingZeros c.integerPart

/-- The `combinedDigits` constant of the builder:
`(integerDigits + fractionalDigits) || '0'`. -/
def combinedDigitsOf (c : DecimalComponents) : List Char :=
  if (integerDigitsOf c ++ stripTrailingZeros c.fractionalPart).isEmpty then ['0']
  else integerDigitsOf c ++ stripTrailingZeros c.fractionalPart

/-- The builder body of `parseToFixedDecimal` (the code after the call to
the normalizer): strip leading zeros of the integer part (defaulting to
`"0"`), strip trailing zeros of the fractional part, concatenate, read the
digits as a `BigInt`, and take the cleaned fractional length as scale. -/
def buildFixedDecimal (c : DecimalComponents) : FixedDecimal :=
  ⟨c.sign, natOfDigitChars (combinedDigitsOf c),
   ((stripTrailingZeros c.fractionalPart).length : Int)⟩

/-- `parseToFixedDecimal` of `num/parseToFixedDecimal.ts`: the builder on
top of the normalizer. -/
def parseToFixedDecimal (input : JSInput) : Except String FixedDecimal :=
  match normalizeToDecimalComponents input with
  | .error e => .error e
  | .ok c => .ok (buildFixedDecimal c)

/-- `fixedDecimalToStr` of `num/fixedDecimalToStr.ts`, at the level of
character lists; `slice` clamping matches `List.take`/`List.drop`. -/
def fixedDecimalToStrChars (value : FixedDecimal) : List Char :=
  let signSymbol : List Char := if value.sign < 0 then ['-'] else []
  let allDigitsString := natToChars value.digitsInteger
  if value.scale = 0 then signSymbol ++ allDigitsString
  else
    let padZeros : Int := value.scale - allDigitsString.length
    if 0 ≤ padZeros then
      signSymbol ++ '0' :: '.' :: (List.replicate padZeros.toNat '0' ++ allDigitsString)
    else
      let integerBoundary := ((allDigitsString.length : Int) - value.scale).toNat
      signSymbol ++ allDigitsString.take integerBoundary ++
        '.' :: allDigitsString.drop integerBoundary

/-- `fixedDecimalToStr` as a `String`. -/
def fixedDecimalToStr (value : FixedDecimal) : String :=
  (fixedDecimalToStrChars value).asString

/-- `roundFixedDecimal` of `num/roundFixedDecimal.ts`; `decimalPlaces` is
integer-valued (`Math.trunc` of the source is the identity on it) and
`BigInt` division/modulus on the non-negative `digitsInteger` is
`Nat` division/modulus. -/
def roundFixedDecimal (source : FixedDecimal) (decimalPlaces : Int)
    (roundMode : RoundMode) : FixedDecimal :=
  let targetPrecision : Int := max 0 decimalPlaces
  if source.scale ≤ targetPrecision then source
  else
    let digitsToRemove := (source.scale - targetPrecision).toNat
    let divisionFactor := 10 ^ digitsToRemove
    let integerPart := source.digitsInteger / divisionFactor
    let remainder := source.digitsInteger % divisionFactor
    if roundMode = RoundMode.trunc ∨ remainder = 0 then
      ⟨source.sign, integerPart, targetPrecision⟩
    else
      let halfThreshold := divisionFactor / 2
      ⟨source.sign, if halfThreshold ≤ remainder then integerPart + 1 else integerPart,
       targetPrecision⟩

/-- `changeFixedDecimalScale` of `num/changeFixedDecimalScale.ts`;
`scaleDelta` is integer-valued (`Math.trunc` is the identity on it). -/
def changeFixedDecimalScale (value : FixedDecimal) (scaleDelta : Int) : FixedDecimal :=
  let delta := scaleDelta
  if delta = 0 then value
  else if 0 < delta then
    ⟨value.sign, value.digitsInteger, value.scale + delta⟩
  else
    let multiplier := 10 ^ (-delta).toNat
    ⟨value.sign, value.digitsInteger * multiplier, value.scale + delta⟩

/-- Decomposition of a decimal string of the renderer's shape (optional
`'-'`, digits, optional `'.'` and digits) into its sign flag, integer-part
value, fractional-part value and fractional length. -/
def jsNumberParts (l : List Char) : Bool × Nat × Nat × Nat :=
  let negAndRest : Bool × List Char :=
    if l.head? = some '-' then (true, l.tail) else (false, l)
  let ipAndFp := splitFirstDot negAndRest.2
  let fp := ipAndFp.2.getD []
  (negAndRest.1, natOfDigitChars ipAndFp.1, natOfDigitChars fp, fp.length)

/-- The exact rational value of a decimal string of the renderer's shape:
the model of JavaScript `Number(string)` for `fixedDecimalToNum`, exact
rather than rounded to binary floating point. -/
def jsNumberRat (l : List Char) : ℚ :=
  let p := jsNumberParts l
  (if p.1 then -1 else 1) * ((p.2.1 : ℚ) + (p.2.2.1 : ℚ) / (10 : ℚ) ^ p.2.2.2)

/-- `fixedDecimalToNum` of `num/fixedDecimalToNum.ts`:
`Number(fixedDecimalToStr(value))`, in the exact-rational model. -/
def fixedDecimalToNum (value : FixedDecimal) : ℚ :=
  jsNumberRat (fixedDecimalToStrChars value)

/-- `formatToNum` of `num/formatToNum.ts` (defaults `round = 1` are passed
explicitly in the embedding); errors of the parse propagate. -/
def formatToNum (value : JSInput) (round : Int) : Except String ℚ :=
  (if 1 < round then
    (parseToFixedDecimal value).map (fun fd => roundFixedDecimal fd round RoundMode.halfUp)
  else parseToFixedDecimal value).map fixedDecimalToNum

/-- `numNormalize` of `num/numNormalize.ts`: the same composite inside
`try/catch`, returning `0` on error unless the `throwError` flag (named
`throwErr` here, since `throwError` is reserved in Lean) is set. -/
def numNormalize (value : JSInput) (round : Int) (throwErr : Bool) : Except String ℚ :=
  match formatToNum value round with
  | .ok q => .ok q
  | .error e => if throwErr then .error e else .ok 0

/-! ## Predicates used to state the claims -/

/-- Every character is a decimal digit. -/
def DigitsOnly (l : List Char) : Prop := ∀ c ∈ l, isDigitChar c = true

instance : DecidablePred DigitsOnly := fun l =>
  inferInstanceAs (Decidable (∀ c ∈ l, isDigitChar c = true))

/-- The normalization invariant of the specification's data model: a
non-negative scale, no trailing zero in the fractional digits (the digit
string rendered with `scale` fractional places has none), and the zero
value stored as `digitsInteger = 0, scale = 0`. -/
def NormalizedFD (v : FixedDecimal) : Prop :=
  0 ≤ v.scale ∧ (v.digitsInteger = 0 → v.scale = 0) ∧
    (0 < v.scale → v.digitsInteger % 10 ≠ 0)

instance (v : FixedDecimal) : Decidable (NormalizedFD v) :=
  inferInstanceAs (Decidable (_ ∧ _ ∧ _))

/-- A decimal string in canonical form, as described by the round-trip
claim: an optional minus sign, an integer part with no redundant leading
zero, and an optional dot-prefixed fractional part with no trailing zero;
zero itself is never written with a minus sign (its canonical form is
`"0"`). -/
def CanonicalDecimal (s : String) : Prop :=
  ∃ (neg : Bool) (I F : List Char),
    s.data = (if neg then ['-'] else []) ++ I ++ (if F.isEmpty then [] else '.' :: F) ∧
    I ≠ [] ∧ DigitsOnly I ∧ (I.head? = some '0' → I = ['0']) ∧
    DigitsOnly F ∧ F.getLast? ≠ some '0' ∧
    (neg = true → ¬(I = ['0'] ∧ F = []))

/-- A well-formed exponent tail `[+\-]?[0-9]+` as a shape predicate. -/
def ExpTailShape (l : List Char) : Prop :=
  ∃ (sgn ds : List Char),
    (sgn = [] ∨ sgn = ['+'] ∨ sgn = ['-']) ∧ ds ≠ [] ∧ DigitsOnly ds ∧ l = sgn ++ ds

/-- The shape of a string that passes the numeric grammar while carrying
no digit outside its exponent: an optional lone dot followed by an
optional well-formed exponent. -/
def NoCoeffDigitsShape (l : List Char) : Prop :=
  ∃ (dot exp : List Char),
    (dot = [] ∨ dot = ['.']) ∧
    (exp = [] ∨ ∃ e t, (e = 'e' ∨ e = 'E') ∧ ExpTailShape t ∧ exp = e :: t) ∧
    l = dot ++ exp

/-- `NoCoeffDigitsShape` with the exponent digits spelled out and their
value bounded by `2 ^ 53`, the range on which `parseInt` is an exact
integer and the template interpolation renders plain decimal digits. -/
def NoCoeffDigitsShapeBounded (l : List Char) : Prop :=
  ∃ (dot sgn ds : List Char),
    (dot = [] ∨ dot = ['.']) ∧
    ((sgn = [] ∧ ds = [] ∧ l = dot) ∨
     ((sgn = [] ∨ sgn = ['+'] ∨ sgn = ['-']) ∧ ds ≠ [] ∧ DigitsOnly ds ∧
      natOfDigitChars ds ≤ 2 ^ 53 ∧ ∃ e, (e = 'e' ∨ e = 'E') ∧ l = dot ++ e :: (sgn ++ ds)))

/-! ## Character lemmas -/

theorem char_eq_of_toNat_eq {c d : Char} (h : c.toNat = d.toNat) : c = d :=
  Char.eq_of_val_eq (UInt32.ext h)

theorem isDigitChar_iff {c : Char} : isDigitChar c = true ↔ 48 ≤ c.toNat ∧ c.toNat ≤ 57 := by
  simp [isDigitChar]

theorem charVal_lt_ten {c : Char} (h : isDigitChar c = true) : charVal c < 10 := by
  have := isDigitChar_iff.mp h
  unfold charVal
  omega

theorem digitChar_charVal {c : Char} (h : isDigitChar c = true) : digitChar (charVal c) = c := by
  have hb := isDigitChar_iff.mp h
  have hcases : c.toNat = 48 ∨ c.toNat = 49 ∨ c.toNat = 50 ∨ c.toNat = 51 ∨ c.toNat = 52 ∨
      c.toNat = 53 ∨ c.toNat = 54 ∨ c.toNat = 55 ∨ c.toNat = 56 ∨ c.toNat = 57 := by omega
  rcases hcases with h' | h' | h' | h' | h' | h' | h' | h' | h' | h' <;>
    (apply char_eq_of_toNat_eq; simp only [charVal]; rw [h']; decide)

theorem charVal_digitChar {d : Nat} (h : d < 10) : charVal (digitChar d) = d := by
  interval_cases d <;> decide

theorem isDigitChar_digitChar {d : Nat} (h : d < 10) : isDigitChar (digitChar d) = true := by
  interval_cases d <;> decide

theorem digitChar_eq_zero_iff {d : Nat} (h : d < 10) : digitChar d = '0' ↔ d = 0 := by
  interval_cases d <;> decide

theorem charVal_eq_zero {c : Char} (h : isDigitChar c = true) (h0 : c ≠ '0') :
    charVal c ≠ 0 := by
  have hb := isDigitChar_iff.mp h
  have h48 : c.toNat ≠ 48 := fun he => h0 (char_eq_of_toNat_eq (by rw [he]; decide))
  unfold charVal
  omega

theorem isDigitChar_ne_dot {c : Char} (h : isDigitChar c = true) : c ≠ '.' := by
  intro he
  subst he
  exact absurd h (by decide)

theorem isDigitChar_ne_e {c : Char} (h : isDigitChar c = true) : c ≠ 'e' ∧ c ≠ 'E' := by
  constructor <;> (intro he; subst he; exact absurd h (by decide))

/-! ## Digit-string arithmetic lemmas -/

theorem foldl_digits_acc (a : Nat) (L : List Nat) :
    L.foldl (fun x d => x * 10 + d) a = a * 10 ^ L.length + natOfVals L := by
  induction L generalizing a with
  | nil => simp [natOfVals]
  | cons d t ih =>
    have hv : natOfVals (d :: t) = d * 10 ^ t.length + natOfVals t := by
      show List.foldl (fun x d => x * 10 + d) (0 * 10 + d) t = _
      rw [ih (0 * 10 + d)]
      ring
    rw [List.foldl_cons, ih (a * 10 + d), hv, List.length_cons]
    ring

theorem natOfVals_cons (d : Nat) (t : List Nat) :
    natOfVals (d :: t) = d * 10 ^ t.length + natOfVals t := by
  show List.foldl (fun x d => x * 10 + d) (0 * 10 + d) t = _
  rw [foldl_digits_acc (0 * 10 + d)]
  ring

theorem natOfVals_cons_zero (t : List Nat) : natOfVals (0 :: t) = natOfVals t := by
  rw [natOfVals_cons]
  ring_nf

theorem natOfVals_append_singleton (L : List Nat) (d : Nat) :
    natOfVals (L ++ [d]) = 10 * natOfVals L + d := by
  unfold natOfVals
  rw [List.foldl_append]
  simp [mul_comm]

theorem natOfVals_pos {L : List Nat} (hne : L ≠ []) (hh : L.head? ≠ some 0) :
    0 < natOfVals L := by
  cases L with
  | nil => exact absurd rfl hne
  | cons d t =>
    have hd : d ≠ 0 := by
      intro h
      exact hh (by simp [h])
    rw [natOfVals_cons]
    have : 0 < 10 ^ t.length := Nat.pos_pow_of_pos _ (by omega)
    have : 1 * 1 ≤ d * 10 ^ t.length := Nat.mul_le_mul (by omega) this
    omega

theorem natOfVals_replicate_zero_append (k : Nat) (L : List Nat) :
    natOfVals (List.replicate k 0 ++ L) = natOfVals L := by
  induction k with
  | zero => simp
  | succ n ih => rw [List.replicate_succ, List.cons_append, natOfVals_cons_zero, ih]

theorem natDigitsAux_zero (f : Nat) : natDigitsAux f 0 = [] := by
  cases f <;> simp [natDigitsAux]

theorem natDigitsAux_congr :
    ∀ (f1 f2 n : Nat), n ≤ f1 → n ≤ f2 → natDigitsAux f1 n = natDigitsAux f2 n := by
  intro f1
  induction f1 with
  | zero =>
    intro f2 n h1 _
    have : n = 0 := by omega
    subst this
    rw [natDigitsAux_zero, natDigitsAux_zero]
  | succ k ih =>
    intro f2 n h1 h2
    rcases Nat.eq_zero_or_pos n with hn | hn
    · subst hn
      rw [natDigitsAux_zero, natDigitsAux_zero]
    · cases f2 with
      | zero => omega
      | succ j =>
        have hd : n / 10 < n := Nat.div_lt_self hn (by omega)
        simp only [natDigitsAux, if_neg (by omega : ¬ n = 0)]
        rw [ih (n := n / 10) j (by omega) (by omega)]

theorem natDigitsLE_eq (n : Nat) :
    natDigitsLE n = if n = 0 then [] else n % 10 :: natDigitsLE (n / 10) := by
  unfold natDigitsLE
  cases n with
  | zero => rw [natDigitsAux_zero]; rfl
  | succ m =>
    have hd : (m + 1) / 10 < m + 1 := Nat.div_lt_self (by omega) (by omega)
    simp only [natDigitsAux, if_neg (by omega : ¬ m + 1 = 0)]
    rw [natDigitsAux_congr m ((m + 1) / 10) ((m + 1) / 10) (by omega) (by omega)]

theorem natDigitsLE_ne_nil {n : Nat} (hn : n ≠ 0) : natDigitsLE n ≠ [] := by
  rw [natDigitsLE_eq, if_neg hn]
  simp

theorem natDigitsLE_lt_ten (n : Nat) : ∀ d ∈ natDigitsLE n, d < 10 := by
  induction n using Nat.strong_induction_on with
  | _ n ih =>
    rcases Nat.eq_zero_or_pos n with hn | hn
    · subst hn
      simp [natDigitsLE_eq]
    · rw [natDigitsLE_eq, if_neg (by omega)]
      intro d hd
      rcases List.mem_cons.mp hd with h | h
      · subst h
        exact Nat.mod_lt _ (by omega)
      · exact ih (n / 10) (Nat.div_lt_self hn (by omega)) d h

theorem natDigitsLE_getLast_ne_zero (n : Nat) (hn : n ≠ 0) :
    (natDigitsLE n).getLast? ≠ some 0 := by
  induction n using Nat.strong_induction_on with
  | _ n ih =>
    rw [natDigitsLE_eq, if_neg hn]
    rcases Nat.lt_or_ge n 10 with hsm | hlg
    · have h10 : n / 10 = 0 := Nat.div_eq_of_lt hsm
      have hm : n % 10 = n := Nat.mod_eq_of_lt hsm
      rw [h10, natDigitsLE_eq]
      simp [hm, hn]
    · have hd : n / 10 < n := Nat.div_lt_self (by omega) (by omega)
      have hd0 : n / 10 ≠ 0 := by
        have : 1 ≤ n / 10 := (Nat.le_div_iff_mul_le (by omega)).mpr (by omega)
        omega
      have htail := natDigitsLE_ne_nil hd0
      cases he : natDigitsLE (n / 10) with
      | nil => exact absurd he htail
      | cons a t =>
        rw [List.getLast?_cons_cons, ← he]
        exact ih (n / 10) hd hd0

theorem natDigitsLE_of_vals (L : List Nat) (hd : ∀ d ∈ L, d < 10) (hne : L ≠ [])
    (hh : L.head? ≠ some 0) : natDigitsLE (natOfVals L) = L.reverse := by
  induction L using List.reverseRecOn with
  | nil => exact absurd rfl hne
  | append_singleton M d ihM =>
    have hdlt : d < 10 := hd d (by simp)
    cases M with
    | nil =>
      have hd0 : d ≠ 0 := by
        intro h
        exact hh (by simp [h])
      have hv : natOfVals [d] = d := by
        show 0 * 10 + d = d
        omega
      simp only [List.nil_append]
      rw [hv, natDigitsLE_eq, if_neg hd0, Nat.mod_eq_of_lt hdlt,
        Nat.div_eq_of_lt hdlt, natDigitsLE_eq]
      simp
    | cons a t =>
      have hm : 0 < natOfVals (a :: t) :=
        natOfVals_pos (by simp) (by simpa using hh)
      have hv : natOfVals ((a :: t) ++ [d]) = 10 * natOfVals (a :: t) + d :=
        natOfVals_append_singleton _ _
      rw [hv, natDigitsLE_eq, if_neg (by omega)]
      have hmod : (10 * natOfVals (a :: t) + d) % 10 = d := by omega
      have hdiv : (10 * natOfVals (a :: t) + d) / 10 = natOfVals (a :: t) := by omega
      rw [hmod, hdiv, ihM (fun x hx => hd x (List.mem_append_left [d] hx)) (by simp) (by simpa using hh)]
      simp

theorem natOfVals_digitsLE_rev (n : Nat) : natOfVals (natDigitsLE n).reverse = n := by
  induction n using Nat.strong_induction_on with
  | _ n ih =>
    rcases Nat.eq_zero_or_pos n with hn | hn
    · subst hn
      rfl
    · rw [natDigitsLE_eq, if_neg (by omega), List.reverse_cons, natOfVals_append_singleton,
        ih (n / 10) (Nat.div_lt_self hn (by omega))]
      omega

theorem natToChars_all_digits (n : Nat) : DigitsOnly (natToChars n) := by
  intro c hc
  unfold natToChars at hc
  by_cases hn : n = 0
  · rw [if_pos hn] at hc
    simp at hc
    subst hc
    decide
  · rw [if_neg hn] at hc
    rcases List.mem_map.mp hc with ⟨d, hd, rfl⟩
    exact isDigitChar_digitChar (natDigitsLE_lt_ten n d (List.mem_reverse.mp hd))

theorem natToChars_ne_nil (n : Nat) : natToChars n ≠ [] := by
  unfold natToChars
  by_cases hn : n = 0
  · simp [hn]
  · rw [if_neg hn]
    simpa using natDigitsLE_ne_nil hn

theorem natToChars_head_ne_zero {n : Nat} (hn : n ≠ 0) :
    (natToChars n).head? ≠ some '0' := by
  unfold natToChars
  rw [if_neg hn]
  rw [List.head?_map, List.head?_reverse]
  intro hcon
  rcases Option.map_eq_some'.mp hcon with ⟨d, hd, hchar⟩
  have hd10 : d < 10 := natDigitsLE_lt_ten n d (List.mem_of_mem_getLast? hd)
  have : d = 0 := (digitChar_eq_zero_iff hd10).mp hchar
  subst this
  exact natDigitsLE_getLast_ne_zero n hn hd

theorem natToChars_natOfDigitChars {l : List Char} (hne : l ≠ []) (hdig : DigitsOnly l)
    (hlead : l.head? = some '0' → l = ['0']) : natToChars (natOfDigitChars l) = l := by
  by_cases h0 : l = ['0']
  · subst h0
    decide
  · have hhead : l.head? ≠ some '0' := fun h => h0 (hlead h)
    cases l with
    | nil => exact absurd rfl hne
    | cons c t =>
      have hc : isDigitChar c = true := hdig c (by simp)
      have hc0 : c ≠ '0' := by
        intro h
        exact hhead (by simp [h])
      have hvals : ∀ d ∈ (c :: t).map charVal, d < 10 := by
        intro d hdm
        rcases List.mem_map.mp hdm with ⟨x, hx, rfl⟩
        exact charVal_lt_ten (hdig x hx)
      have hh : ((c :: t).map charVal).head? ≠ some 0 := by
        simp only [List.map_cons, List.head?_cons]
        intro h
        exact charVal_eq_zero hc hc0 (by simpa using h)
      have hpos : 0 < natOfVals ((c :: t).map charVal) :=
        natOfVals_pos (by simp) hh
      unfold natOfDigitChars natToChars
      rw [if_neg (by omega), natDigitsLE_of_vals _ hvals (by simp) hh]
      rw [List.reverse_reverse, List.map_map]
      have : ∀ x ∈ c :: t, (digitChar ∘ charVal) x = id x := by
        intro x hx
        simp [digitChar_charVal (hdig x hx)]
      rw [List.map_congr_left this, List.map_id]

theorem natOfDigitChars_natToChars (n : Nat) : natOfDigitChars (natToChars n) = n := by
  by_cases hn : n = 0
  · subst hn
    decide
  · unfold natToChars natOfDigitChars
    rw [if_neg hn, List.map_map]
    have : ∀ x ∈ (natDigitsLE n).reverse, (charVal ∘ digitChar) x = id x := by
      intro x hx
      simp [charVal_digitChar (natDigitsLE_lt_ten n x (List.mem_reverse.mp hx))]
    rw [List.map_congr_left this, List.map_id, natOfVals_digitsLE_rev]

theorem natOfDigitChars_mod_ten {l : List Char} {c : Char} (h : isDigitChar c = true) :
    natOfDigitChars (l ++ [c]) % 10 = charVal c := by
  unfold natOfDigitChars
  rw [List.map_append, List.map_singleton, natOfVals_append_singleton]
  have := charVal_lt_ten h
  omega

/-! ## takeWhile / dropWhile helper lemmas -/

theorem dropWhile_append_all {α : Type} {p : α → Bool} {a : List α} (b : List α)
    (h : ∀ x ∈ a, p x = true) : (a ++ b).dropWhile p = b.dropWhile p := by
  induction a with
  | nil => simp
  | cons x t ih =>
    rw [List.cons_append, List.dropWhile_cons, if_pos (h x (by simp))]
    exact ih (fun y hy => h y (by simp [hy]))

theorem takeWhile_append_all {α : Type} {p : α → Bool} {a : List α} (b : List α)
    (h : ∀ x ∈ a, p x = true) : (a ++ b).takeWhile p = a ++ b.takeWhile p := by
  induction a with
  | nil => simp
  | cons x t ih =>
    rw [List.cons_append, List.takeWhile_cons, if_pos (h x (by simp))]
    rw [ih (fun y hy => h y (by simp [hy]))]
    simp

theorem dropWhile_all_nil {α : Type} {p : α → Bool} {a : List α}
    (h : ∀ x ∈ a, p x = true) : a.dropWhile p = [] := by
  induction a with
  | nil => simp
  | cons x t ih =>
    rw [List.dropWhile_cons, if_pos (h x (by simp))]
    exact ih (fun y hy => h y (by simp [hy]))

theorem takeWhile_all_self {α : Type} {p : α → Bool} {a : List α}
    (h : ∀ x ∈ a, p x = true) : a.takeWhile p = a := by
  induction a with
  | nil => simp
  | cons x t ih =>
    rw [List.takeWhile_cons, if_pos (h x (by simp))]
    rw [ih (fun y hy => h y (by simp [hy]))]

theorem dropWhile_cons_neg {α : Type} {p : α → Bool} {x : α} {t : List α}
    (h : p x = false) : (x :: t).dropWhile p = x :: t := by
  rw [List.dropWhile_cons, if_neg (by simp [h])]

theorem takeWhile_cons_neg {α : Type} {p : α → Bool} {x : α} {t : List α}
    (h : p x = false) : (x :: t).takeWhile p = [] := by
  rw [List.takeWhile_cons, if_neg (by simp [h])]

theorem dropWhile_all_false {α : Type} {p : α → Bool} {a : List α}
    (h : ∀ x ∈ a, p x = false) : a.dropWhile p = a := by
  cases a with
  | nil => simp
  | cons x t => exact dropWhile_cons_neg (h x (by simp))

theorem dropWhile_head_false {α : Type} {p : α → Bool} {l : List α} {h : α} {t : List α}
    (e : l.dropWhile p = h :: t) : p h = false := by
  induction l with
  | nil => simp at e
  | cons x s ih =>
    rw [List.dropWhile_cons] at e
    by_cases hp : p x = true
    · rw [if_pos hp] at e
      exact ih e
    · rw [if_neg hp] at e
      cases e
      simpa using hp

theorem takeWhile_sat {α : Type} {p : α → Bool} {l : List α} :
    ∀ x ∈ l.takeWhile p, p x = true := fun _ hx => List.mem_takeWhile_imp hx

/-! ## String-primitive lemmas -/

theorem jsTrim_of_no_ws {l : List Char} (h : ∀ c ∈ l, jsWhitespaceB c = false) :
    jsTrim l = l := by
  unfold jsTrim
  rw [dropWhile_all_false h, dropWhile_all_false (by simpa using h), List.reverse_reverse]

theorem replaceFirstComma_of_no_comma {l : List Char} (h : ∀ c ∈ l, c ≠ ',') :
    replaceFirstComma l = l := by
  unfold replaceFirstComma
  rw [dropWhile_all_nil (by simpa [bne_iff_ne] using h)]
  rfl

theorem containsE_of_no_e {l : List Char} (h : ∀ c ∈ l, c ≠ 'e' ∧ c ≠ 'E') :
    containsE l = false := by
  unfold containsE
  rw [List.any_eq_false]
  intro x hx
  simp [(h x hx).1, (h x hx).2]

theorem containsE_of_mem {l : List Char} {c : Char} (hc : c ∈ l) (h : c = 'e' ∨ c = 'E') :
    containsE l = true := by
  unfold containsE
  rw [List.any_eq_true]
  exact ⟨c, hc, by rcases h with h | h <;> simp [h]⟩

theorem splitFirstDot_no_dot {l : List Char} (h : ∀ c ∈ l, c ≠ '.') :
    splitFirstDot l = (l, none) := by
  unfold splitFirstDot
  rw [dropWhile_all_nil (by simpa [bne_iff_ne] using h)]
  rfl

theorem splitFirstDot_found {I F : List Char} (hI : ∀ c ∈ I, c ≠ '.') (hF : ∀ c ∈ F, c ≠ '.') :
    splitFirstDot (I ++ '.' :: F) = (I, some F) := by
  have hIb : ∀ c ∈ I, (c != '.') = true := by simpa [bne_iff_ne] using hI
  have h1 : (I ++ '.' :: F).dropWhile (fun c => c != '.') = '.' :: F := by
    rw [dropWhile_append_all _ hIb, dropWhile_cons_neg (by simp)]
  have h2 : (I ++ '.' :: F).takeWhile (fun c => c != '.') = I := by
    rw [takeWhile_append_all _ hIb, takeWhile_cons_neg (by simp), List.append_nil]
  have h3 : F.takeWhile (fun c => c != '.') = F :=
    takeWhile_all_self (by simpa [bne_iff_ne] using hF)
  unfold splitFirstDot
  rw [h1, h2]
  simp [h3]

/-! ## Unfolding lemmas for the pipeline -/

theorem normalize_str_eq (s : String) :
    normalizeToDecimalComponents (.str s) =
      (if (processedOf s).isEmpty then .error "Input string is empty."
       else if matchesNumGrammar (consumeSign (processedOf s)).2 then
         (if containsE (consumeSign (processedOf s)).2 then
            convertExponentialToParts (consumeSign (processedOf s)).1
              (consumeSign (processedOf s)).2
          else .ok ⟨(consumeSign (processedOf s)).1,
                    (splitFirstDot (consumeSign (processedOf s)).2).1,
                    (splitFirstDot (consumeSign (processedOf s)).2).2.getD []⟩)
       else .error "Invalid numeric string.") := rfl

theorem parseToFixedDecimal_error {input : JSInput} {e : String}
    (h : normalizeToDecimalComponents input = .error e) :
    parseToFixedDecimal input = .error e := by
  unfold parseToFixedDecimal
  rw [h]

theorem parseToFixedDecimal_ok {input : JSInput} {c : DecimalComponents}
    (h : normalizeToDecimalComponents input = .ok c) :
    parseToFixedDecimal input = .ok (buildFixedDecimal c) := by
  unfold parseToFixedDecimal
  rw [h]

/-! ## Invariants of the builder inputs -/

theorem stripTrailingZeros_getLast (l : List Char) :
    (stripTrailingZeros l).getLast? ≠ some '0' := by
  unfold stripTrailingZeros
  rw [List.getLast?_reverse]
  cases hq : l.reverse.dropWhile (fun c => c == '0') with
  | nil => simp
  | cons a t =>
    have := dropWhile_head_false hq
    simp only [List.head?_cons]
    intro hcon
    rw [(Option.some.injEq _ _).mp hcon] at this
    simp at this

theorem stripTrailingZeros_mem {l : List Char} : ∀ c ∈ stripTrailingZeros l, c ∈ l := by
  intro c hc
  unfold stripTrailingZeros at hc
  rw [List.mem_reverse] at hc
  have := (List.dropWhile_sublist _).subset hc
  simpa using this

theorem stripLeadingZeros_mem {l : List Char} : ∀ c ∈ stripLeadingZeros l, c ∈ l :=
  fun _ hc => (List.dropWhile_sublist _).subset hc

theorem stripLeadingZeros_head {l : List Char} (h : stripLeadingZeros l ≠ []) :
    (stripLeadingZeros l).head? ≠ some '0' := by
  cases hq : stripLeadingZeros l with
  | nil => exact absurd hq h
  | cons a t =>
    have := dropWhile_head_false hq
    simp only [List.head?_cons]
    intro hcon
    rw [(Option.some.injEq _ _).mp hcon] at this
    simp at this

theorem innerMatch_some_digits {l : List Char} {m : List Char × List Char × Int}
    (h : innerMatch l = some m) : m.1 = l.takeWhile isDigitChar ∧ DigitsOnly m.1 := by
  unfold innerMatch at h
  by_cases hd : (l.takeWhile isDigitChar).isEmpty
  · rw [if_pos hd] at h
    cases h
  · rw [if_neg hd] at h
    dsimp only at h
    by_cases hdot : (l.dropWhile isDigitChar).head? = some '.'
    · rw [if_pos hdot] at h
      dsimp only at h
      by_cases he : ((l.dropWhile isDigitChar).tail.dropWhile isDigitChar).head? = some 'e' ∨
          ((l.dropWhile isDigitChar).tail.dropWhile isDigitChar).head? = some 'E'
      · rw [if_pos (by simpa using he)] at h
        rcases Option.map_eq_some'.mp h with ⟨z, _, hz⟩
        rw [← hz]
        exact ⟨rfl, fun c hc => takeWhile_sat c hc⟩
      · rw [if_neg (by simpa using he)] at h
        cases h
    · rw [if_neg hdot] at h
      dsimp only at h
      by_cases he : (l.dropWhile isDigitChar).head? = some 'e' ∨
          (l.dropWhile isDigitChar).head? = some 'E'
      · rw [if_pos (by simpa using he)] at h
        rcases Option.map_eq_some'.mp h with ⟨z, _, hz⟩
        rw [← hz]
        exact ⟨rfl, fun c hc => takeWhile_sat c hc⟩
      · rw [if_neg (by simpa using he)] at h
        cases h

theorem convertExponentialToParts_ok_shape {sign : Int} {es : List Char}
    {c : DecimalComponents} (h : convertExponentialToParts sign es = .ok c) :
    ∃ m, innerMatch (expConstructed es) = some m ∧ c = expandParts sign m := by
  unfold convertExponentialToParts at h
  cases hm : innerMatch (expConstructed es) with
  | none =>
    rw [hm] at h
    cases h
  | some m =>
    rw [hm] at h
    cases h
    exact ⟨m, rfl, rfl⟩

theorem expandParts_digits {sign : Int} {m : List Char × List Char × Int}
    (hdig : DigitsOnly m.1) :
    DigitsOnly (expandParts sign m).integerPart ∧
      DigitsOnly (expandParts sign m).fractionalPart := by
  unfold expandParts
  by_cases hz : isNumPZ m.2.2 = true
  · rw [if_pos hz]
    dsimp only
    constructor
    · intro x hx
      by_cases hw : (m.1 ++ List.replicate m.2.2.toNat '0').isEmpty
      · simp only [if_pos hw] at hx
        simp at hx
        subst hx
        decide
      · simp only [if_neg hw] at hx
        rcases List.mem_append.mp hx with hx | hx
        · exact hdig x hx
        · rw [List.eq_of_mem_replicate hx]
          decide
    · intro x hx
      simp at hx
  · rw [if_neg hz]
    dsimp only
    by_cases hlen : m.1.length ≤ (-m.2.2).toNat
    · rw [if_pos hlen]
      dsimp only
      constructor
      · intro x hx
        simp at hx
        subst hx
        decide
      · intro x hx
        rcases List.mem_append.mp hx with hx | hx
        · rw [List.eq_of_mem_replicate hx]
          decide
        · exact hdig x hx
    · rw [if_neg hlen]
      dsimp only
      constructor
      · intro x hx
        exact hdig x (List.take_subset _ _ hx)
      · intro x hx
        exact hdig x (List.drop_subset _ _ hx)

theorem convertExponentialToParts_ok_digits {sign : Int} {es : List Char}
    {c : DecimalComponents} (h : convertExponentialToParts sign es = .ok c) :
    DigitsOnly c.integerPart ∧ DigitsOnly c.fractionalPart := by
  rcases convertExponentialToParts_ok_shape h with ⟨m, hm, rfl⟩
  exact expandParts_digits (innerMatch_some_digits hm).2

theorem normalize_bigint_eq (n : Int) :
    normalizeToDecimalComponents (.bigint n) =
      .ok ⟨if n < 0 then -1 else 1, natToChars n.natAbs, []⟩ := rfl

theorem normalize_num_finite_eq (b : Bool) (es : List Char) :
    normalizeToDecimalComponents (.num (.finite b es)) =
      convertExponentialToParts (if b then -1 else 1) es := rfl

/-- A string that passes the numeric grammar and has no exponent marker is
either a plain digit run or two digit runs around a single dot, and
`split('.')` recovers exactly those runs. -/
theorem grammar_no_e_split {l : List Char} (hg : matchesNumGrammar l = true)
    (he : containsE l = false) :
    (DigitsOnly l ∧ splitFirstDot l = (l, none)) ∨
    (∃ d1 d2, DigitsOnly d1 ∧ DigitsOnly d2 ∧ l = d1 ++ '.' :: d2 ∧
      splitFirstDot l = (d1, some d2)) := by
  have hsplit := List.takeWhile_append_dropWhile (p := isDigitChar) (l := l)
  have hmem_r1 : ∀ x ∈ l.dropWhile isDigitChar, x ∈ l :=
    fun x hx => (List.dropWhile_sublist _).subset hx
  have hd1dig : DigitsOnly (l.takeWhile isDigitChar) := fun x hx => takeWhile_sat x hx
  unfold matchesNumGrammar at hg
  cases hr1e : l.dropWhile isDigitChar with
  | nil =>
    have hld : DigitsOnly l := by
      rw [← hsplit, hr1e, List.append_nil]
      exact hd1dig
    exact Or.inl ⟨hld, splitFirstDot_no_dot (fun x hx => isDigitChar_ne_dot (hld x hx))⟩
  | cons x t =>
    have hx : isDigitChar x = false := dropWhile_head_false hr1e
    rw [hr1e] at hg
    by_cases hdot : x = '.'
    · subst hdot
      simp only [List.head?_cons, List.tail_cons, Option.some.injEq, if_true] at hg
      cases hr3 : t.dropWhile isDigitChar with
      | nil =>
        have htw : t.takeWhile isDigitChar = t := by
          have hts := List.takeWhile_append_dropWhile (p := isDigitChar) (l := t)
          rw [hr3, List.append_nil] at hts
          exact hts
        have htdig : DigitsOnly t := by
          intro y hy
          rw [← htw] at hy
          exact takeWhile_sat y hy
        refine Or.inr ⟨l.takeWhile isDigitChar, t, hd1dig, htdig, ?_, ?_⟩
        · conv_lhs => rw [← hsplit, hr1e]
        · conv in splitFirstDot l => rw [← hsplit, hr1e]
          exact splitFirstDot_found (fun y hy => isDigitChar_ne_dot (hd1dig y hy))
            (fun y hy => isDigitChar_ne_dot (htdig y hy))
      | cons y u =>
        exfalso
        rw [hr3] at hg
        simp only [List.isEmpty_cons, List.head?_cons, List.tail_cons,
          Option.some.injEq, Bool.false_eq_true, if_false] at hg
        have hymem : y ∈ l := by
          apply hmem_r1
          rw [hr1e]
          have hyd : y ∈ t.dropWhile isDigitChar := by
            rw [hr3]
            simp
          exact List.mem_cons_of_mem _ ((List.dropWhile_sublist _).subset hyd)
        by_cases hy : y = 'e' ∨ y = 'E'
        · rw [containsE_of_mem hymem hy] at he
          cases he
        · push_neg at hy
          rw [if_neg (by simp [hy.1, hy.2])] at hg
          cases hg
    · exfalso
      simp only [List.head?_cons, List.tail_cons, Option.some.injEq] at hg
      rw [if_neg hdot, dropWhile_cons_neg hx] at hg
      simp only [List.isEmpty_cons, List.head?_cons, List.tail_cons,
        Option.some.injEq, Bool.false_eq_true, if_false] at hg
      have hxmem : x ∈ l := by
        apply hmem_r1
        rw [hr1e]
        simp
      by_cases hxe : x = 'e' ∨ x = 'E'
      · rw [containsE_of_mem hxmem hxe] at he
        cases he
      · push_neg at hxe
        rw [if_neg (by simp [hxe.1, hxe.2])] at hg
        cases hg

/-- Every successful normalization yields digit-only component strings. -/
theorem normalize_ok_digits {input : JSInput} {c : DecimalComponents}
    (h : normalizeToDecimalComponents input = .ok c) :
    DigitsOnly c.integerPart ∧ DigitsOnly c.fractionalPart := by
  cases input with
  | bigint n =>
    rw [normalize_bigint_eq] at h
    cases h
    exact ⟨natToChars_all_digits _, by intro x hx; simp at hx⟩
  | num x =>
    cases x with
    | finite b es =>
      rw [normalize_num_finite_eq] at h
      exact convertExponentialToParts_ok_digits h
    | nan => exact Except.noConfusion h
    | posInf => exact Except.noConfusion h
    | negInf => exact Except.noConfusion h
  | str s =>
    rw [normalize_str_eq] at h
    by_cases hemp : (processedOf s).isEmpty
    · rw [if_pos hemp] at h
      exact Except.noConfusion h
    · rw [if_neg hemp] at h
      by_cases hg : matchesNumGrammar (consumeSign (processedOf s)).2 = true
      · rw [if_pos hg] at h
        by_cases hce : containsE (consumeSign (processedOf s)).2 = true
        · rw [if_pos hce] at h
          exact convertExponentialToParts_ok_digits h
        · rw [if_neg hce] at h
          cases h
          rcases grammar_no_e_split hg (by simpa using hce) with
            ⟨hld, hsp⟩ | ⟨d1, d2, hd1, hd2, _, hsp⟩
          · rw [hsp]
            exact ⟨hld, by intro x hx; simp at hx⟩
          · rw [hsp]
            exact ⟨hd1, by simpa using hd2⟩
      · rw [if_neg hg] at h
        exact Except.noConfusion h
  | other => exact Except.noConfusion h

/-- The cleaned integer digits are never empty. -/
theorem integerDigitsOf_ne_nil (c : DecimalComponents) : integerDigitsOf c ≠ [] := by
  unfold integerDigitsOf
  by_cases hsl : (stripLeadingZeros c.integerPart).isEmpty
  · simp [hsl]
  · rw [if_neg hsl]
    simpa using hsl

/-- Since the integer side is never empty, the combined-digits default
never fires. -/
theorem combinedDigitsOf_eq (c : DecimalComponents) :
    combinedDigitsOf c = integerDigitsOf c ++ stripTrailingZeros c.fractionalPart := by
  unfold combinedDigitsOf
  rw [if_neg]
  intro hq
  rw [List.isEmpty_iff] at hq
  exact integerDigitsOf_ne_nil c (List.append_eq_nil.mp hq).1

/-- The builder output is always normalized when the fractional component
is a digit string. -/
theorem buildFixedDecimal_normalized {c : DecimalComponents}
    (hF : DigitsOnly c.fractionalPart) : NormalizedFD (buildFixedDecimal c) := by
  unfold buildFixedDecimal
  set F2 := stripTrailingZeros c.fractionalPart with hF2
  have hkey : 0 < F2.length → natOfDigitChars (combinedDigitsOf c) % 10 ≠ 0 := by
    intro hlen
    have hne : F2 ≠ [] := by
      intro hq
      rw [hq] at hlen
      simp at hlen
    have hlast := List.dropLast_append_getLast hne
    have hlq : F2.getLast? = some (F2.getLast hne) :=
      List.getLast?_eq_getLast_of_ne_nil hne
    have hlne : F2.getLast hne ≠ '0' := by
      intro hq
      apply stripTrailingZeros_getLast c.fractionalPart
      rw [← hF2, hlq, hq]
    have hlmem : F2.getLast hne ∈ c.fractionalPart := by
      apply stripTrailingZeros_mem
      rw [← hF2]
      exact List.getLast_mem hne
    have hldig : isDigitChar (F2.getLast hne) = true := hF _ hlmem
    have hassoc : combinedDigitsOf c = (integerDigitsOf c ++ F2.dropLast) ++ [F2.getLast hne] := by
      rw [combinedDigitsOf_eq, ← hF2, List.append_assoc, hlast]
    rw [hassoc, natOfDigitChars_mod_ten hldig]
    exact charVal_eq_zero hldig hlne
  refine ⟨by positivity, ?_, ?_⟩
  · intro hd
    show (F2.length : Int) = 0
    by_contra hs
    have hlen : 0 < F2.length := by
      rcases Nat.eq_zero_or_pos F2.length with hq | hq
      · exact absurd (by exact_mod_cast congrArg (Nat.cast : Nat → Int) hq) hs
      · exact hq
    exact hkey hlen (by rw [show natOfDigitChars (combinedDigitsOf c) = 0 from hd])
  · intro hs
    apply hkey
    have hs2 : (0 : Int) < (F2.length : Int) := hs
    exact_mod_cast hs2

/-! ## Behaviour on strings with no coefficient digits -/

theorem isDigitChar_ne_sign {c : Char} (h : isDigitChar c = true) :
    c ≠ '+' ∧ c ≠ '-' := by
  constructor <;> (intro he; subst he; exact absurd h (by decide))

theorem jsWhitespaceB_of_digit {c : Char} (h : isDigitChar c = true) :
    jsWhitespaceB c = false := by
  cases hw : jsWhitespaceB c with
  | false => rfl
  | true =>
    exfalso
    unfold jsWhitespaceB at hw
    simp at hw
    rcases hw with h' | h' | h' | h' | h' | h' | h' | h' | h' | h' | h' | h' | h' |
      h' | h' | h' | h' | h' | h' | h' | h' | h' | h' | h' | h' <;>
      (subst h'; exact absurd h (by decide))

theorem stripLeadingZeros_of_allZeros {l : List Char} (h : ∀ c ∈ l, c = '0') :
    stripLeadingZeros l = [] :=
  dropWhile_all_nil (by intro x hx; simp [h x hx])

theorem stripTrailingZeros_of_allZeros {l : List Char} (h : ∀ c ∈ l, c = '0') :
    stripTrailingZeros l = [] := by
  unfold stripTrailingZeros
  rw [dropWhile_all_nil (by intro x hx; simp [h x (List.mem_reverse.mp hx)])]
  rfl

theorem splitFirstE_found {A B : List Char} {e : Char}
    (hA : ∀ c ∈ A, (c == 'e' || c == 'E') = false)
    (hB : ∀ c ∈ B, (c == 'e' || c == 'E') = false)
    (he : (e == 'e' || e == 'E') = true) : splitFirstE (A ++ e :: B) = (A, some B) := by
  unfold splitFirstE
  have hA2 : ∀ c ∈ A, (!(c == 'e' || c == 'E')) = true := by
    intro c hc
    simp [hA c hc]
  have h1 : (A ++ e :: B).dropWhile (fun c => !(c == 'e' || c == 'E')) = e :: B := by
    rw [dropWhile_append_all _ hA2, dropWhile_cons_neg (by simp [he])]
  have h2 : (A ++ e :: B).takeWhile (fun c => !(c == 'e' || c == 'E')) = A := by
    rw [takeWhile_append_all _ hA2, takeWhile_cons_neg (by simp [he]), List.append_nil]
  have hB2 : ∀ c ∈ B, (!(c == 'e' || c == 'E')) = true := by
    intro c hc
    simp [hB c hc]
  have h3 : B.takeWhile (fun c => !(c == 'e' || c == 'E')) = B := takeWhile_all_self hB2
  rw [h1, h2]
  simp only [List.isEmpty_cons, Bool.false_eq_true, if_false, List.tail_cons, h3]

theorem roundDoubleNat_le {n : Nat} (h : n ≤ 2 ^ 53) : roundDoubleNat n = n := by
  unfold roundDoubleNat
  rw [if_pos h]

theorem jsNumToChars_small {z : Int} (h : z.natAbs < 10 ^ 21) :
    jsNumToChars z = intToChars z := by
  unfold jsNumToChars
  rw [if_pos h]

theorem jsParseInt_expTail {sgn ds : List Char}
    (hsgn : sgn = [] ∨ sgn = ['+'] ∨ sgn = ['-']) (hds : ds ≠ []) (hdig : DigitsOnly ds) :
    jsParseInt (sgn ++ ds) =
      some ((if sgn = ['-'] then -1 else 1) * (roundDoubleNat (natOfDigitChars ds) : Int)) := by
  cases hd : ds with
  | nil => exact absurd hd hds
  | cons d dt =>
    subst hd
    have hd0 : isDigitChar d = true := hdig d (by simp)
    have hdw : jsWhitespaceB d = false := jsWhitespaceB_of_digit hd0
    have hplus := (isDigitChar_ne_sign hd0).1
    have hminus := (isDigitChar_ne_sign hd0).2
    have htw : (d :: dt).takeWhile isDigitChar = d :: dt := takeWhile_all_self hdig
    rcases hsgn with rfl | rfl | rfl
    · unfold jsParseInt
      rw [List.nil_append, dropWhile_cons_neg hdw]
      simp [hplus, hminus, htw]
    · unfold jsParseInt
      rw [List.cons_append, List.nil_append, dropWhile_cons_neg (by decide)]
      simp [htw]
    · unfold jsParseInt
      rw [List.cons_append, List.nil_append, dropWhile_cons_neg (by decide)]
      simp [htw]

theorem parseExpTail_intToChars {z : Int} (hz : z.natAbs ≤ 2 ^ 53) :
    parseExpTail (intToChars z) = some z := by
  have hrd : roundDoubleNat z.natAbs = z.natAbs := roundDoubleNat_le hz
  have hdig := natToChars_all_digits z.natAbs
  have htk : (natToChars z.natAbs).takeWhile isDigitChar = natToChars z.natAbs :=
    takeWhile_all_self hdig
  have hdr : (natToChars z.natAbs).dropWhile isDigitChar = [] := dropWhile_all_nil hdig
  have hnn := natToChars_ne_nil z.natAbs
  have hval := natOfDigitChars_natToChars z.natAbs
  obtain ⟨a, t, hat⟩ : ∃ a t, natToChars z.natAbs = a :: t := by
    cases hq : natToChars z.natAbs with
    | nil => exact absurd hq hnn
    | cons a t => exact ⟨a, t, rfl⟩
  have ha : isDigitChar a = true := hdig a (by rw [hat]; simp)
  have haplus := (isDigitChar_ne_sign ha).1
  have haminus := (isDigitChar_ne_sign ha).2
  by_cases hneg : z < 0
  · rw [show intToChars z = '-' :: natToChars z.natAbs from by
      unfold intToChars
      rw [if_pos hneg]]
    unfold parseExpTail
    simp [htk, hdr, List.isEmpty_iff, hnn, hval, hrd] <;> simp [abs_of_neg hneg]
  · rw [show intToChars z = natToChars z.natAbs from by
      unfold intToChars
      rw [if_neg hneg]]
    have htk2 : (a :: t).takeWhile isDigitChar = a :: t := by
      rw [← hat]
      exact htk
    have hdr2 : (a :: t).dropWhile isDigitChar = [] := by
      rw [← hat]
      exact hdr
    have hval2 : natOfDigitChars (a :: t) = z.natAbs := by
      rw [← hat]
      exact hval
    rw [hat]
    unfold parseExpTail
    simp [haplus, haminus, htk2, hdr2, hval2, hrd] <;> omega

theorem expConstructed_no_coeff {dot t : List Char} {e : Char} {z : Int}
    (hdot : dot = [] ∨ dot = ['.']) (he : e = 'e' ∨ e = 'E') (ht : ExpTailShape t)
    (hz : jsParseInt t = some z) :
    expConstructed (dot ++ e :: t) = '0' :: 'e' :: jsNumToChars z := by
  have hAe : ∀ c ∈ dot, (c == 'e' || c == 'E') = false := by
    rcases hdot with rfl | rfl
    · intro c hc
      simp at hc
    · intro c hc
      simp at hc
      subst hc
      decide
  have hBe : ∀ c ∈ t, (c == 'e' || c == 'E') = false := by
    obtain ⟨sgn, ds, hsgn, hds, hdig, rfl⟩ := ht
    intro c hc
    rcases List.mem_append.mp hc with hc | hc
    · rcases hsgn with rfl | rfl | rfl
      · simp at hc
      · simp at hc
        subst hc
        decide
      · simp at hc
        subst hc
        decide
    · have := isDigitChar_ne_e (hdig c hc)
      simp [this.1, this.2]
  have hee : (e == 'e' || e == 'E') = true := by
    rcases he with rfl | rfl <;> decide
  have hse := splitFirstE_found hAe hBe hee
  unfold expConstructed
  rw [hse]
  rcases hdot with rfl | rfl <;> simp [hz, stripLeadingZeros, splitFirstDot]

theorem innerMatch_zero_exp {z : Int} (hz : z.natAbs ≤ 2 ^ 53) :
    innerMatch ('0' :: 'e' :: intToChars z) = some (['0'], [], z) := by
  unfold innerMatch
  have htke : ('0' :: 'e' :: intToChars z).takeWhile isDigitChar = ['0'] := by
    rw [List.takeWhile_cons, if_pos (by decide), takeWhile_cons_neg (by decide)]
  have hdre : ('0' :: 'e' :: intToChars z).dropWhile isDigitChar = 'e' :: intToChars z := by
    rw [List.dropWhile_cons, if_pos (by decide), dropWhile_cons_neg (by decide)]
  rw [htke, hdre]
  simp [parseExpTail_intToChars hz]

theorem expandParts_all_zero (sign : Int) (z : Int) :
    (expandParts sign (['0'], [], z)).sign = sign ∧
    (∀ ch ∈ (expandParts sign (['0'], [], z)).integerPart, ch = '0') ∧
    (∀ ch ∈ (expandParts sign (['0'], [], z)).fractionalPart, ch = '0') := by
  unfold expandParts
  by_cases hz : isNumPZ z = true
  · rw [if_pos hz]
    refine ⟨rfl, ?_, ?_⟩
    · intro ch hch
      simp only at hch
      rw [if_neg (by simp)] at hch
      rcases List.mem_append.mp hch with hch | hch
      · simpa using hch
      · exact List.eq_of_mem_replicate hch
    · intro ch hch
      simp at hch
  · rw [if_neg hz]
    have hz2 : z < 0 := by
      unfold isNumPZ at hz
      simpa using hz
    have hlen : (['0'] : List Char).length ≤ (-z).toNat := by
      simp only [List.length_singleton]
      omega
    rw [if_pos hlen]
    refine ⟨rfl, ?_, ?_⟩
    · intro ch hch
      simpa using hch
    · intro ch hch
      rcases List.mem_append.mp hch with hch | hch
      · exact List.eq_of_mem_replicate hch
      · simpa using hch

theorem convert_no_coeff {sign : Int} {dot sgn ds : List Char} {e : Char}
    (hdot : dot = [] ∨ dot = ['.']) (he : e = 'e' ∨ e = 'E')
    (hsgn : sgn = [] ∨ sgn = ['+'] ∨ sgn = ['-']) (hds : ds ≠ []) (hdig : DigitsOnly ds)
    (hbound : natOfDigitChars ds ≤ 2 ^ 53) :
    ∃ c, convertExponentialToParts sign (dot ++ e :: (sgn ++ ds)) = .ok c ∧ c.sign = sign ∧
      (∀ ch ∈ c.integerPart, ch = '0') ∧ (∀ ch ∈ c.fractionalPart, ch = '0') := by
  have hrd : roundDoubleNat (natOfDigitChars ds) = natOfDigitChars ds :=
    roundDoubleNat_le hbound
  have hz : jsParseInt (sgn ++ ds) =
      some ((if sgn = ['-'] then -1 else 1) * (natOfDigitChars ds : Int)) := by
    rw [jsParseInt_expTail hsgn hds hdig, hrd]
  have hzabs : ((if sgn = ['-'] then (-1 : Int) else 1) *
      (natOfDigitChars ds : Int)).natAbs ≤ 2 ^ 53 := by
    by_cases hm : sgn = ['-']
    · rw [if_pos hm]
      simpa using hbound
    · rw [if_neg hm]
      simpa using hbound
  have hec := expConstructed_no_coeff hdot he ⟨sgn, ds, hsgn, hds, hdig, rfl⟩ hz
  have hsmall : jsNumToChars ((if sgn = ['-'] then (-1 : Int) else 1) *
      (natOfDigitChars ds : Int)) = intToChars ((if sgn = ['-'] then (-1 : Int) else 1) *
      (natOfDigitChars ds : Int)) :=
    jsNumToChars_small (Nat.lt_of_le_of_lt hzabs (by norm_num))
  refine ⟨expandParts sign (['0'], [],
    (if sgn = ['-'] then (-1 : Int) else 1) * (natOfDigitChars ds : Int)), ?_,
    expandParts_all_zero sign _⟩
  unfold convertExponentialToParts
  rw [hec, hsmall, innerMatch_zero_exp hzabs]

theorem buildFixedDecimal_zero {c : DecimalComponents}
    (hid : ∀ ch ∈ c.integerPart, ch = '0') (hfd : ∀ ch ∈ c.fractionalPart, ch = '0') :
    buildFixedDecimal c = ⟨c.sign, 0, 0⟩ := by
  unfold buildFixedDecimal
  have h2 : stripTrailingZeros c.fractionalPart = [] := stripTrailingZeros_of_allZeros hfd
  have h3 : integerDigitsOf c = ['0'] := by
    unfold integerDigitsOf
    rw [stripLeadingZeros_of_allZeros hid]
    rfl
  have h4 : combinedDigitsOf c = ['0'] := by
    rw [combinedDigitsOf_eq, h3, h2]
    rfl
  rw [h4, h2]
  rw [show natOfDigitChars ['0'] = 0 from by decide]
  rfl

theorem expTailOk_of_shape {t : List Char} (ht : ExpTailShape t) : expTailOk t = true := by
  obtain ⟨sgn, ds, hsgn, hds, hdig, rfl⟩ := ht
  cases hd : ds with
  | nil => exact absurd hd hds
  | cons d dt =>
    subst hd
    have hd0 : isDigitChar d = true := hdig d (by simp)
    have hplus := (isDigitChar_ne_sign hd0).1
    have hminus := (isDigitChar_ne_sign hd0).2
    unfold expTailOk
    rcases hsgn with rfl | rfl | rfl
    · rw [List.nil_append]
      rw [if_neg (by simp [hplus, hminus])]
      simp [List.all_eq_true]
      exact ⟨hd0, fun x hx => hdig x (by simp [hx])⟩
    · rw [List.cons_append, List.nil_append]
      rw [if_pos (by simp)]
      simp [List.all_eq_true]
      exact ⟨hd0, fun x hx => hdig x (by simp [hx])⟩
    · rw [List.cons_append, List.nil_append]
      rw [if_pos (by simp)]
      simp [List.all_eq_true]
      exact ⟨hd0, fun x hx => hdig x (by simp [hx])⟩

theorem matchesNumGrammar_no_coeff {rest : List Char} (h : NoCoeffDigitsShape rest) :
    matchesNumGrammar rest = true := by
  obtain ⟨dot, exp, hdot, hexp, rfl⟩ := h
  rcases hexp with rfl | ⟨e, t, he, ht, rfl⟩
  · rcases hdot with rfl | rfl <;> decide
  · have hexpok : expTailOk t = true := expTailOk_of_shape ht
    have hed : isDigitChar e = false := by
      rcases he with rfl | rfl <;> decide
    have hee : (e = 'e' ∨ e = 'E') := he
    rcases hdot with rfl | rfl
    · rw [List.nil_append]
      unfold matchesNumGrammar
      have hene : ¬ (e :: t).head? = some '.' := by
        rcases he with rfl | rfl <;> simp
      simp only [dropWhile_cons_neg hed]
      rw [if_neg hene]
      simp only [dropWhile_cons_neg hed, List.isEmpty_cons, Bool.false_eq_true, if_false,
        List.head?_cons, List.tail_cons]
      rw [if_pos (by rcases hee with rfl | rfl <;> simp)]
      exact hexpok
    · rw [List.cons_append, List.nil_append]
      unfold matchesNumGrammar
      simp only [dropWhile_cons_neg (show isDigitChar '.' = false from by decide),
        List.head?_cons, if_true]
      simp only [List.tail_cons, dropWhile_cons_neg hed, List.isEmpty_cons,
        Bool.false_eq_true, if_false, List.head?_cons]
      rw [if_pos (by rcases hee with rfl | rfl <;> simp)]
      exact hexpok

theorem noCoeffBounded_shape {l : List Char} (h : NoCoeffDigitsShapeBounded l) :
    NoCoeffDigitsShape l := by
  obtain ⟨dot, sgn, ds, hdot, hcase⟩ := h
  rcases hcase with ⟨-, -, hl⟩ | ⟨hsgn, hds, hdig, -, e, he, hl⟩
  · exact ⟨dot, [], hdot, Or.inl rfl, by rw [hl, List.append_nil]⟩
  · exact ⟨dot, e :: (sgn ++ ds), hdot,
      Or.inr ⟨e, sgn ++ ds, he, ⟨sgn, ds, hsgn, hds, hdig, rfl⟩, rfl⟩, hl⟩

/-! ## Canonical strings and the round trip -/

theorem isDigitChar_ne_comma {c : Char} (h : isDigitChar c = true) : c ≠ ',' := by
  intro he
  subst he
  exact absurd h (by decide)

theorem consumeSign_minus (xs : List Char) : consumeSign ('-' :: xs) = (-1, xs) := rfl

theorem consumeSign_of_not_sign {c : Char} {t : List Char} (h1 : c ≠ '+') (h2 : c ≠ '-') :
    consumeSign (c :: t) = (1, c :: t) := by
  unfold consumeSign
  rw [if_neg (by simp [h1, h2])]

theorem stripLeadingZeros_of_head {l : List Char} (h : l.head? ≠ some '0') :
    stripLeadingZeros l = l := by
  unfold stripLeadingZeros
  cases l with
  | nil => rfl
  | cons a t =>
    refine dropWhile_cons_neg ?_
    simp only [List.head?_cons] at h
    simp
    intro he
    exact h (by rw [he])

theorem stripTrailingZeros_of_getLast {l : List Char} (h : l.getLast? ≠ some '0') :
    stripTrailingZeros l = l := by
  unfold stripTrailingZeros
  cases hr : l.reverse with
  | nil =>
    rw [List.dropWhile_nil]
    simpa using congrArg List.reverse hr
  | cons a t =>
    have ha : a ≠ '0' := by
      intro he
      apply h
      rw [← List.head?_reverse, hr, he]
      rfl
    rw [dropWhile_cons_neg (by simp [ha]), ← hr, List.reverse_reverse]

theorem natOfDigitChars_cons_zero (l : List Char) :
    natOfDigitChars ('0' :: l) = natOfDigitChars l := by
  unfold natOfDigitChars
  rw [List.map_cons, show charVal '0' = 0 from rfl]
  exact natOfVals_cons_zero _

theorem natOfDigitChars_zeros_append {F0 F1 : List Char} (h : ∀ c ∈ F0, c = '0') :
    natOfDigitChars (F0 ++ F1) = natOfDigitChars F1 := by
  unfold natOfDigitChars
  rw [List.map_append]
  have : F0.map charVal = List.replicate F0.length 0 := by
    rw [show (0 : Nat) = charVal '0' from rfl]
    refine List.eq_replicate_of_mem ?_ |>.trans (by rw [List.length_map])
    intro v hv
    rcases List.mem_map.mp hv with ⟨c, hc, rfl⟩
    rw [h c hc]
  rw [this]
  exact natOfVals_replicate_zero_append _ _

theorem matchesNumGrammar_canonical {I F : List Char} (hIdig : DigitsOnly I)
    (hFdig : DigitsOnly F) :
    matchesNumGrammar (I ++ (if F.isEmpty then [] else '.' :: F)) = true := by
  have hIb : ∀ c ∈ I, isDigitChar c = true := hIdig
  cases F with
  | nil =>
    simp only [List.isEmpty_nil, if_true, List.append_nil]
    unfold matchesNumGrammar
    rw [dropWhile_all_nil hIb]
    rfl
  | cons f ft =>
    simp only [List.isEmpty_cons, Bool.false_eq_true, if_false]
    unfold matchesNumGrammar
    rw [dropWhile_append_all _ hIb, dropWhile_cons_neg (by decide)]
    simp only [List.head?_cons, if_true, List.tail_cons]
    rw [dropWhile_all_nil hFdig]
    rfl

theorem splitFirstDot_canonical {I F : List Char} (hIdig : DigitsOnly I)
    (hFdig : DigitsOnly F) :
    splitFirstDot (I ++ (if F.isEmpty then [] else '.' :: F)) =
      (I, if F.isEmpty then none else some F) := by
  cases hF : F.isEmpty
  · rw [if_neg (by simp [hF]), if_neg (by simp [hF])]
    exact splitFirstDot_found (fun c hc => isDigitChar_ne_dot (hIdig c hc))
      (fun c hc => isDigitChar_ne_dot (hFdig c hc))
  · rw [if_pos (by simp [hF]), if_pos (by simp [hF]), List.append_nil]
    exact splitFirstDot_no_dot (fun c hc => isDigitChar_ne_dot (hIdig c hc))

theorem buildFixedDecimal_canonical {sgn : Int} {I F : List Char} (hIne : I ≠ [])
    (hIlead : I.head? = some '0' → I = ['0']) (hFlast : F.getLast? ≠ some '0') :
    buildFixedDecimal ⟨sgn, I, F⟩ = ⟨sgn, natOfDigitChars (I ++ F), (F.length : Int)⟩ := by
  have hint : integerDigitsOf ⟨sgn, I, F⟩ = I := by
    unfold integerDigitsOf
    by_cases h0 : I = ['0']
    · rw [h0]
      rfl
    · have hh : I.head? ≠ some '0' := fun hq => h0 (hIlead hq)
      rw [show (⟨sgn, I, F⟩ : DecimalComponents).integerPart = I from rfl,
        stripLeadingZeros_of_head hh]
      rw [if_neg (by simpa [List.isEmpty_iff] using hIne)]
  have hfrac : stripTrailingZeros (⟨sgn, I, F⟩ : DecimalComponents).fractionalPart = F :=
    stripTrailingZeros_of_getLast hFlast
  have hcmb : combinedDigitsOf ⟨sgn, I, F⟩ = I ++ F := by
    rw [combinedDigitsOf_eq, hint, hfrac]
  unfold buildFixedDecimal
  rw [hcmb, hfrac]

/-- The string renderer inverts the builder on canonical digit strings:
rendering `⟨±1, digits of I ++ F, |F|⟩` recovers the sign mark, the
integer digits and the dot-prefixed fraction. -/
theorem fixedDecimalToStrChars_canonical {neg : Bool} {I F : List Char}
    (hIne : I ≠ []) (hIdig : DigitsOnly I) (hIlead : I.head? = some '0' → I = ['0'])
    (hFdig : DigitsOnly F) (hFlast : F.getLast? ≠ some '0') :
    fixedDecimalToStrChars
        ⟨if neg then -1 else 1, natOfDigitChars (I ++ F), (F.length : Int)⟩ =
      (if neg then ['-'] else []) ++ I ++ (if F.isEmpty then [] else '.' :: F) := by
  unfold fixedDecimalToStrChars
  have hsym : (if ((⟨if neg then -1 else 1, natOfDigitChars (I ++ F),
      (F.length : Int)⟩ : FixedDecimal).sign < 0) then (['-'] : List Char) else []) =
      (if neg then ['-'] else []) := by
    cases neg <;> simp
  rw [hsym]
  cases F with
  | nil =>
    rw [if_pos (by simp), List.append_nil,
      natToChars_natOfDigitChars hIne hIdig hIlead]
    simp
  | cons f ft =>
    rw [if_neg (by simp; omega)]
    by_cases h0 : I = ['0']
    · subst h0
      have hd0 : natOfDigitChars (['0'] ++ f :: ft) = natOfDigitChars (f :: ft) :=
        natOfDigitChars_cons_zero _

      have hsplitF := List.takeWhile_append_dropWhile
        (p := fun c => c == '0') (l := f :: ft)
      have hF0 : ∀ c ∈ (f :: ft).takeWhile (fun c => c == '0'), c = '0' := by
        intro c hc
        have := takeWhile_sat c hc
        simpa using this
      have hF1ne : (f :: ft).dropWhile (fun c => c == '0') ≠ [] := by
        intro hq
        rw [hq, List.append_nil] at hsplitF
        apply hFlast
        have hall : ∀ c ∈ f :: ft, c = '0' := by
          intro c hc
          apply hF0
          rw [hsplitF]
          exact hc
        have hmem := List.getLast_mem (l := f :: ft) (by simp)
        rw [List.getLast?_eq_getLast_of_ne_nil (by simp), hall _ hmem]
      have hF1head : ((f :: ft).dropWhile (fun c => c == '0')).head? ≠ some '0' := by
        cases hq : (f :: ft).dropWhile (fun c => c == '0') with
        | nil => simp
        | cons a t =>
          have := dropWhile_head_false hq
          simp only [List.head?_cons]
          intro hcon
          rw [(Option.some.injEq _ _).mp hcon] at this
          simp at this
      have hF1dig : DigitsOnly ((f :: ft).dropWhile (fun c => c == '0')) := by
        intro c hc
        exact hFdig c ((List.dropWhile_sublist _).subset hc)
      have hdigitsF : natOfDigitChars (f :: ft) =
          natOfDigitChars ((f :: ft).dropWhile (fun c => c == '0')) := by
        conv_lhs => rw [← hsplitF]
        exact natOfDigitChars_zeros_append hF0
      have hrend : natToChars (natOfDigitChars ((f :: ft).dropWhile (fun c => c == '0'))) =
          (f :: ft).dropWhile (fun c => c == '0') :=
        natToChars_natOfDigitChars hF1ne hF1dig (fun hq => absurd hq hF1head)
      have hlen : ((f :: ft).dropWhile (fun c => c == '0')).length ≤ (f :: ft).length := by
        conv_rhs => rw [← hsplitF]
        rw [List.length_append]
        omega
      rw [show (⟨if neg then -1 else 1, natOfDigitChars (['0'] ++ f :: ft),
          ((f :: ft).length : Int)⟩ : FixedDecimal).digitsInteger =
          natOfDigitChars (['0'] ++ f :: ft) from rfl, hd0, hdigitsF, hrend]
      rw [if_pos (by
        show (0 : Int) ≤ ((f :: ft).length : Int) - _
        omega)]
      have htn : ((((f :: ft).length : Int)) -
          (((f :: ft).dropWhile (fun c => c == '0')).length : Int)).toNat =
          ((f :: ft).takeWhile (fun c => c == '0')).length := by
        have : ((f :: ft).takeWhile (fun c => c == '0')).length +
            ((f :: ft).dropWhile (fun c => c == '0')).length = (f :: ft).length := by
          conv_rhs => rw [← hsplitF]
          rw [List.length_append]
        omega
      rw [htn]
      have hrep : List.replicate ((f :: ft).takeWhile (fun c => c == '0')).length '0' =
          (f :: ft).takeWhile (fun c => c == '0') :=
        (List.eq_replicate_of_mem hF0).symm
      rw [hrep]
      simp only [List.isEmpty_cons, Bool.false_eq_true, if_false]
      rw [hsplitF]
      simp
    · have hIhead : I.head? ≠ some '0' := fun hq => h0 (hIlead hq)
      have hcomb_ne : I ++ f :: ft ≠ [] := by simp [hIne]
      have hcomb_dig : DigitsOnly (I ++ f :: ft) := by
        intro c hc
        rcases List.mem_append.mp hc with hc | hc
        · exact hIdig c hc
        · exact hFdig c hc
      have hcomb_head : (I ++ f :: ft).head? = I.head? := by
        cases I with
        | nil => exact absurd rfl hIne
        | cons a t => rfl
      have hcomb_lead : (I ++ f :: ft).head? = some '0' → I ++ f :: ft = ['0'] := by
        rw [hcomb_head]
        intro hq
        exact absurd hq hIhead
      have hrend : natToChars (natOfDigitChars (I ++ f :: ft)) = I ++ f :: ft :=
        natToChars_natOfDigitChars hcomb_ne hcomb_dig hcomb_lead
      rw [show (⟨if neg then -1 else 1, natOfDigitChars (I ++ f :: ft),
          ((f :: ft).length : Int)⟩ : FixedDecimal).digitsInteger =
          natOfDigitChars (I ++ f :: ft) from rfl, hrend]
      have hIlen : 1 ≤ I.length := by
        cases I with
        | nil => exact absurd rfl hIne
        | cons a t => simp
      rw [if_neg (by
        show ¬ (0 : Int) ≤ ((f :: ft).length : Int) - ((I ++ f :: ft).length : Int)
        rw [List.length_append]
        push_cast
        omega)]
      have hbd : ((((I ++ f :: ft).length : Int)) - ((f :: ft).length : Int)).toNat =
          I.length := by
        rw [List.length_append]
        push_cast
        omega
      rw [hbd]
      simp [List.take_left, List.drop_left]

/-! ## Claim theorems -/

/-- **C3** (code evaluated at the failing input): sign normalization of
zero fails for the string input `"-0"`: the string branch of the
normalizer records the consumed minus sign unconditionally, so
`parseToFixedDecimal "-0"` yields `sign = -1, digitsInteger = 0,
scale = 0`, not the `sign = +1` form that `parseToFixedDecimal "0"`
yields and that the data type documents for zero. -/
theorem claim_C3_zero_sign_code_eval :
    parseToFixedDecimal (.str "-0") = .ok ⟨-1, 0, 0⟩ ∧
    parseToFixedDecimal (.str "0") = .ok ⟨1, 0, 0⟩ ∧
    (⟨-1, 0, 0⟩ : FixedDecimal) ≠ ⟨1, 0, 0⟩ := by
  decide

/-- **C5**: exponent expansion is correct on the claim's two instances:
`parseToFixedDecimal "1.23e5"` equals `parseToFixedDecimal "123000"`
(both `⟨1, 123000, 0⟩`) and `parseToFixedDecimal "4.5e-3"` equals
`parseToFixedDecimal "0.0045"` (both `⟨1, 45, 4⟩`). -/
theorem claim_C5_exponent_expansion :
    parseToFixedDecimal (.str "1.23e5") = parseToFixedDecimal (.str "123000") ∧
    parseToFixedDecimal (.str "1.23e5") = .ok ⟨1, 123000, 0⟩ ∧
    parseToFixedDecimal (.str "4.5e-3") = parseToFixedDecimal (.str "0.0045") ∧
    parseToFixedDecimal (.str "4.5e-3") = .ok ⟨1, 45, 4⟩ := by
  decide

/-- **C8** (counterexample): `parseToFixedDecimal "1.2.3e5"` raises the
InvalidFormat error of the normalizer (the two-dot text already fails the
numeric grammar, so the expander is never reached), not the
MalformedExponent error the claim names. -/
theorem claim_C8_cex_invalid_not_malformed :
    parseToFixedDecimal (.str "1.2.3e5") = .error "Invalid numeric string." ∧
    "Invalid numeric string." ≠ "Failed to parse exponential notation." := by
  decide

/-- **C8** (amended): malformed exponent-bearing text such as `"1.2.3e5"`
raises InvalidFormat from the normalizer's grammar check; the
MalformedExponent error (`"Failed to parse exponential notation."`) is
raised by `convertExponentialToParts` itself when its argument lacks a
parsable exponent, e.g. on the plain text `"123"` with no exponent
marker. -/
theorem claim_C8_amended_error_split :
    parseToFixedDecimal (.str "1.2.3e5") = .error "Invalid numeric string." ∧
    convertExponentialToParts 1 "123".data =
      .error "Failed to parse exponential notation." := by
  decide

/-- **C2** (code evaluated at the failing input): the scale change is not
value-preserving: on `parse "123.45"` (value `12345/100`) a delta of `-2`
multiplies the digits by `10^2` while also lowering the scale by two, so
the result renders as `1234500`, four orders of magnitude off the
original value. -/
theorem claim_C2_changeScale_value_eval :
    (parseToFixedDecimal (.str "123.45")).map
        (fun v => fixedDecimalToNum (changeFixedDecimalScale v (-2))) = .ok 1234500 ∧
    (parseToFixedDecimal (.str "123.45")).map fixedDecimalToNum = .ok (12345 / 100) ∧
    ((12345 : ℚ) / 100) ≠ 1234500 := by
  have hparse : parseToFixedDecimal (.str "123.45") = .ok ⟨1, 12345, 2⟩ := by decide
  have hcs : changeFixedDecimalScale ⟨1, 12345, 2⟩ (-2) = ⟨1, 1234500, 0⟩ := by decide
  have h1 : jsNumberParts (fixedDecimalToStrChars ⟨1, 1234500, 0⟩) = (false, 1234500, 0, 0) := by
    decide
  have h2 : jsNumberParts (fixedDecimalToStrChars ⟨1, 12345, 2⟩) = (false, 123, 45, 2) := by
    decide
  refine ⟨?_, ?_, by norm_num⟩
  · rw [hparse]
    simp only [Except.map, hcs]
    unfold fixedDecimalToNum jsNumberRat
    rw [h1]
    norm_num
  · rw [hparse]
    simp only [Except.map]
    unfold fixedDecimalToNum jsNumberRat
    rw [h2]
    norm_num

/-- **C6** (counterexample): the normalization invariant does not survive
the operations stage: a scale change of `-1` on `parse "1.23"` yields
`⟨1, 1230, 1⟩` (a trailing fractional zero), and rounding
`parse "0.04"` to one place yields `⟨1, 0, 1⟩` (zero stored with a
non-zero scale); neither value is normalized. -/
theorem claim_C6_cex_ops_not_normalized :
    (parseToFixedDecimal (.str "1.23")).map (fun v => changeFixedDecimalScale v (-1)) =
      .ok ⟨1, 1230, 1⟩ ∧
    ¬ NormalizedFD ⟨1, 1230, 1⟩ ∧
    (parseToFixedDecimal (.str "0.04")).map (fun v => roundFixedDecimal v 1 RoundMode.halfUp) =
      .ok ⟨1, 0, 1⟩ ∧
    ¬ NormalizedFD ⟨1, 0, 1⟩ := by
  decide

/-- **C4**: half-up rounding rounds the magnitude away from zero at the
half boundary and is symmetric around zero: whenever digits are actually
removed (`max 0 places < scale`), the result keeps the sign, has scale
`max 0 places`, and its digits are the quotient by `10^removed`
incremented exactly when twice the remainder reaches `10^removed` (the
removed fraction is at least one half); in particular `parse "1.25"`
rounded to one place renders as `"1.3"` and `parse "-1.25"` as
`"-1.3"`. -/
theorem claim_C4_half_up_away_from_zero :
    (∀ (v : FixedDecimal) (places : Int),
      max 0 places < v.scale →
      roundFixedDecimal v places RoundMode.halfUp =
        ⟨v.sign,
         v.digitsInteger / 10 ^ (v.scale - max 0 places).toNat +
           (if 10 ^ (v.scale - max 0 places).toNat ≤
               2 * (v.digitsInteger % 10 ^ (v.scale - max 0 places).toNat)
            then 1 else 0),
         max 0 places⟩) ∧
    (parseToFixedDecimal (.str "1.25")).map
        (fun v => fixedDecimalToStr (roundFixedDecimal v 1 RoundMode.halfUp)) = .ok "1.3" ∧
    (parseToFixedDecimal (.str "-1.25")).map
        (fun v => fixedDecimalToStr (roundFixedDecimal v 1 RoundMode.halfUp)) = .ok "-1.3" := by
  refine ⟨?_, by decide, by decide⟩
  intro v places h
  have hk : 1 ≤ (v.scale - max 0 places).toNat := by omega
  unfold roundFixedDecimal
  rw [if_neg (by omega)]
  set k := (v.scale - max 0 places).toNat with hkdef
  have hpow : ∃ m, 10 ^ k = 2 * m ∧ 0 < m := by
    refine ⟨5 * 10 ^ (k - 1), ?_, by positivity⟩
    have hks : k = (k - 1) + 1 := by omega
    calc (10 : Nat) ^ k = 10 ^ ((k - 1) + 1) := by rw [← hks]
      _ = 10 ^ (k - 1) * 10 := pow_succ _ _
      _ = 2 * (5 * 10 ^ (k - 1)) := by ring
  rcases hpow with ⟨m, hm, hmpos⟩
  have hhalf : 10 ^ k / 2 = m := by omega
  by_cases hr : v.digitsInteger % 10 ^ k = 0
  · rw [if_pos (Or.inr hr)]
    have : ¬ (10 ^ k ≤ 2 * (v.digitsInteger % 10 ^ k)) := by omega
    rw [if_neg this]
    simp
  · rw [if_neg (by simp [hr])]
    dsimp only
    have hiff : (10 ^ k / 2 ≤ v.digitsInteger % 10 ^ k) ↔
        (10 ^ k ≤ 2 * (v.digitsInteger % 10 ^ k)) := by omega
    by_cases hc : 10 ^ k / 2 ≤ v.digitsInteger % 10 ^ k
    · rw [if_pos hc, if_pos (hiff.mp hc)]
    · rw [if_neg hc, if_neg (fun hx => hc (hiff.mpr hx))]
      simp

/-- Witness for the general conjunct of the C4 theorem at `1.25` rounded
to one place: ten divides out twelve remainder five, and twice five
reaches ten, so the digits are incremented to thirteen. -/
theorem claim_C4_half_up_away_from_zero_witness :
    max 0 (1 : Int) < (⟨1, 125, 2⟩ : FixedDecimal).scale ∧
    roundFixedDecimal ⟨1, 125, 2⟩ 1 RoundMode.halfUp = ⟨1, 13, 1⟩ := by
  refine ⟨by decide, ?_⟩
  have h := claim_C4_half_up_away_from_zero.1 ⟨1, 125, 2⟩ 1 (by decide)
  rw [h]
  decide

/-- **C9**: the composite number formatter first parses, rounds half-up
exactly when `places > 1`, and converts the result to a number; on a parse
error `formatToNum` propagates it, and `numNormalize` propagates it when
its flag is set and otherwise falls back to `0`. -/
theorem claim_C9_formatToNum_contract :
    (∀ (input : JSInput) (places : Int) (flag : Bool) (v : FixedDecimal),
      parseToFixedDecimal input = .ok v →
      formatToNum input places =
        .ok (fixedDecimalToNum
          (if 1 < places then roundFixedDecimal v places RoundMode.halfUp else v)) ∧
      numNormalize input places flag =
        .ok (fixedDecimalToNum
          (if 1 < places then roundFixedDecimal v places RoundMode.halfUp else v))) ∧
    (∀ (input : JSInput) (places : Int) (e : String),
      parseToFixedDecimal input = .error e →
      formatToNum input places = .error e ∧
      numNormalize input places true = .error e ∧
      numNormalize input places false = .ok 0) := by
  constructor
  · intro input places flag v hv
    have hf : formatToNum input places =
        .ok (fixedDecimalToNum
          (if 1 < places then roundFixedDecimal v places RoundMode.halfUp else v)) := by
      unfold formatToNum
      rw [hv]
      by_cases hp : 1 < places
      · simp [hp, Except.map]
      · simp [hp, Except.map]
    have hn : numNormalize input places flag =
        .ok (fixedDecimalToNum
          (if 1 < places then roundFixedDecimal v places RoundMode.halfUp else v)) := by
      unfold numNormalize
      rw [hf]
    exact ⟨hf, hn⟩
  · intro input places e he
    have hf : formatToNum input places = .error e := by
      unfold formatToNum
      rw [he]
      by_cases hp : 1 < places
      · simp [hp, Except.map]
      · simp [hp, Except.map]
    refine ⟨hf, ?_, ?_⟩ <;> (unfold numNormalize; rw [hf]; simp)

/-- Witness for C9 at `"123.456"` with two places (success path) and at
the malformed `"12.34.56"` (fallback path). -/
theorem claim_C9_formatToNum_contract_witness :
    formatToNum (.str "123.456") 2 =
      .ok (fixedDecimalToNum
        (if (1 : Int) < 2 then roundFixedDecimal ⟨1, 123456, 3⟩ 2 RoundMode.halfUp
         else ⟨1, 123456, 3⟩)) ∧
    numNormalize (.str "12.34.56") 2 false = .ok 0 := by
  exact ⟨(claim_C9_formatToNum_contract.1 (.str "123.456") 2 false ⟨1, 123456, 3⟩
            (by decide)).1,
         (claim_C9_formatToNum_contract.2 (.str "12.34.56") 2 "Invalid numeric string."
            (by decide)).2.2⟩

/-- **C7**: the parse error taxonomy: every non-finite number yields the
NotFinite message, every string that trims to nothing yields the
EmptyInput message, every trimmed string whose sign-stripped remainder
fails the numeric grammar (such as `"12.34.56"`) yields the InvalidFormat
message, and every input of an unsupported type yields the
UnsupportedType message. -/
theorem claim_C7_parse_error_taxonomy :
    (∀ x : JSNum, jsIsFinite x = false →
      parseToFixedDecimal (.num x) = .error "Input number is not finite.") ∧
    (∀ s : String, jsTrim s.data = [] →
      parseToFixedDecimal (.str s) = .error "Input string is empty.") ∧
    (∀ s : String, processedOf s ≠ [] →
      matchesNumGrammar (consumeSign (processedOf s)).2 = false →
      parseToFixedDecimal (.str s) = .error "Invalid numeric string.") ∧
    parseToFixedDecimal (.str "12.34.56") = .error "Invalid numeric string." ∧
    parseToFixedDecimal .other = .error "Unsupported input type." := by
  refine ⟨?_, ?_, ?_, by decide, by decide⟩
  · intro x hx
    cases x with
    | nan => rfl
    | posInf => rfl
    | negInf => rfl
    | finite isNeg exp30 => simp [jsIsFinite] at hx
  · intro s h
    have hp : processedOf s = [] := by
      unfold processedOf
      rw [h]
      rfl
    apply parseToFixedDecimal_error
    rw [normalize_str_eq, hp]
    rfl
  · intro s hne hgram
    have hp : (processedOf s).isEmpty = false := by
      cases hq : processedOf s with
      | nil => exact absurd hq hne
      | cons a t => rfl
    apply parseToFixedDecimal_error
    rw [normalize_str_eq, hp]
    simp [hgram]

/-- Witness for C7 at `NaN`, a whitespace-only string, and the two-dot
string. -/
theorem claim_C7_parse_error_taxonomy_witness :
    parseToFixedDecimal (.num .nan) = .error "Input number is not finite." ∧
    parseToFixedDecimal (.str "   ") = .error "Input string is empty." ∧
    parseToFixedDecimal (.str "12.34.56") = .error "Invalid numeric string." :=
  ⟨claim_C7_parse_error_taxonomy.1 .nan (by decide),
   claim_C7_parse_error_taxonomy.2.1 "   " (by decide),
   claim_C7_parse_error_taxonomy.2.2.1 "12.34.56" (by decide) (by decide)⟩

/-- **C6** (amended): the Builder does normalize: every `FixedDecimal`
that `parseToFixedDecimal` returns, on any input kind, has a non-negative
scale, no trailing fractional zero, and stores zero as
`digitsInteger = 0, scale = 0`. -/
theorem claim_C6_parse_normalized :
    ∀ (input : JSInput) (v : FixedDecimal),
      parseToFixedDecimal input = .ok v → NormalizedFD v := by
  intro input v h
  cases hn : normalizeToDecimalComponents input with
  | error e =>
    rw [parseToFixedDecimal_error hn] at h
    cases h
  | ok c =>
    rw [parseToFixedDecimal_ok hn] at h
    simp only [Except.ok.injEq] at h
    subst h
    exact buildFixedDecimal_normalized (normalize_ok_digits hn).2

/-- Witness for the amended C6 theorem at `"1.23"`. -/
theorem claim_C6_parse_normalized_witness :
    parseToFixedDecimal (.str "1.23") = .ok ⟨1, 123, 2⟩ ∧ NormalizedFD ⟨1, 123, 2⟩ :=
  ⟨by decide, claim_C6_parse_normalized (.str "1.23") ⟨1, 123, 2⟩ (by decide)⟩

/-- **C10** (counterexample): the original universal claim fails once the
exponent's value reaches `10 ^ 21`: the input `"e1000000000000000000000"`
has no digit outside its well-formed exponent (the claim's shape), yet
`parseToFixedDecimal` raises `"Failed to parse exponential notation."`
instead of returning a zero `FixedDecimal` — the expander's
`exponentValue` is the number `1e21`, whose template interpolation is the
exponential-notation text `1e+21`, so the rebuilt string `0e1e+21` fails
the inner pattern. -/
theorem claim_C10_cex_huge_exponent :
    NoCoeffDigitsShape (consumeSign (processedOf "e1000000000000000000000")).2 ∧
    processedOf "e1000000000000000000000" ≠ [] ∧
    parseToFixedDecimal (.str "e1000000000000000000000") =
      .error "Failed to parse exponential notation." := by
  refine ⟨⟨[], 'e' :: "1000000000000000000000".data, Or.inl rfl,
    Or.inr ⟨'e', "1000000000000000000000".data, Or.inl rfl,
      ⟨[], "1000000000000000000000".data, Or.inl rfl, by decide, by decide, rfl⟩, rfl⟩,
    by decide⟩, by decide, by decide⟩

/-- **C10** (amended): a string whose processed, sign-stripped remainder
carries no digit outside a well-formed exponent (an optional lone dot
followed by an optional exponent, e.g. `"."`, `"+"`, `"-"`, `"e5"`,
`".e5"`), where the exponent's digit value — if an exponent is present —
is at most `2 ^ 53` (the exact-integer range of a double), does not raise
an error: it parses to the zero `FixedDecimal` with
`digitsInteger = 0, scale = 0`, whose sign field is the consumed sign
character (so `parse "-"` yields sign `-1`). Beyond that bound the
original claim fails: see the counterexample at
`"e1000000000000000000000"`. -/
theorem claim_C10_no_coeff_digit_inputs :
    (∀ s : String, processedOf s ≠ [] →
      NoCoeffDigitsShapeBounded (consumeSign (processedOf s)).2 →
      parseToFixedDecimal (.str s) = .ok ⟨(consumeSign (processedOf s)).1, 0, 0⟩) ∧
    parseToFixedDecimal (.str "-") = .ok ⟨-1, 0, 0⟩ ∧
    parseToFixedDecimal (.str ".") = .ok ⟨1, 0, 0⟩ ∧
    parseToFixedDecimal (.str "+") = .ok ⟨1, 0, 0⟩ ∧
    parseToFixedDecimal (.str "e5") = .ok ⟨1, 0, 0⟩ ∧
    parseToFixedDecimal (.str ".e5") = .ok ⟨1, 0, 0⟩ := by
  refine ⟨?_, by decide, by decide, by decide, by decide, by decide⟩
  intro s hne hshape
  have hemp : (processedOf s).isEmpty = false := by
    cases hq : processedOf s with
    | nil => exact absurd hq hne
    | cons a t => rfl
  have hg := matchesNumGrammar_no_coeff (noCoeffBounded_shape hshape)
  obtain ⟨dot, sgn, ds, hdot, hcase⟩ := hshape
  rcases hcase with ⟨-, -, hrest⟩ | ⟨hsgn, hds, hdig, hbound, e, he, hrest⟩
  · have hce : ¬ containsE (consumeSign (processedOf s)).2 = true := by
      rw [hrest]
      rcases hdot with rfl | rfl <;> decide
    have hnorm : normalizeToDecimalComponents (.str s) =
        .ok ⟨(consumeSign (processedOf s)).1,
             (splitFirstDot (consumeSign (processedOf s)).2).1,
             (splitFirstDot (consumeSign (processedOf s)).2).2.getD []⟩ := by
      rw [normalize_str_eq, if_neg (by simp [hemp]), if_pos hg, if_neg hce]
    rw [parseToFixedDecimal_ok hnorm]
    have hid : ∀ ch ∈ (splitFirstDot (consumeSign (processedOf s)).2).1, ch = '0' := by
      rw [hrest]
      rcases hdot with rfl | rfl <;> (intro ch hch; simp [splitFirstDot] at hch)
    have hfd : ∀ ch ∈ (splitFirstDot (consumeSign (processedOf s)).2).2.getD [], ch = '0' := by
      rw [hrest]
      rcases hdot with rfl | rfl <;> (intro ch hch; simp [splitFirstDot] at hch)
    rw [buildFixedDecimal_zero hid hfd]
  · have hce : containsE (consumeSign (processedOf s)).2 = true := by
      rw [hrest]
      refine containsE_of_mem (List.mem_append_right _ (by simp)) he
    obtain ⟨c, hcv, hcs, hci, hcf⟩ :=
      @convert_no_coeff ((consumeSign (processedOf s)).1) dot sgn ds e
        hdot he hsgn hds hdig hbound
    have hnorm : normalizeToDecimalComponents (.str s) = .ok c := by
      rw [normalize_str_eq, if_neg (by simp [hemp]), if_pos hg, if_pos hce, hrest]
      exact hcv
    rw [parseToFixedDecimal_ok hnorm, buildFixedDecimal_zero hci hcf, hcs]

/-- Witness for the amended C10 theorem at the concrete input `"-"`. -/
theorem claim_C10_no_coeff_digit_inputs_witness :
    parseToFixedDecimal (.str "-") = .ok ⟨(consumeSign (processedOf "-")).1, 0, 0⟩ := by
  apply claim_C10_no_coeff_digit_inputs.1 "-" (by decide)
  exact ⟨[], [], [], Or.inl rfl, Or.inl ⟨rfl, rfl, by decide⟩⟩

/-- **C1**: round-trip exactness: every canonical decimal string (optional
minus, integer digits without a redundant leading zero, optional
dot-prefixed fraction without a trailing zero, zero never signed) is
reproduced exactly by `fixedDecimalToStr` after `parseToFixedDecimal`.
The theorem holds for canonical strings of every length, so in particular
for those of at most 50 significant digits. -/
theorem claim_C1_round_trip :
    ∀ s : String, CanonicalDecimal s →
      (parseToFixedDecimal (.str s)).map fixedDecimalToStr = .ok s := by
  intro s hc
  obtain ⟨neg, I, F, hs, hIne, hIdig, hIlead, hFdig, hFlast, _⟩ := hc
  have hchars : ∀ c ∈ s.data, c = '-' ∨ c = '.' ∨ isDigitChar c = true := by
    rw [hs]
    intro c hcm
    rcases List.mem_append.mp hcm with hcm | hcm
    · rcases List.mem_append.mp hcm with hcm | hcm
      · cases neg with
        | true =>
          simp at hcm
          exact Or.inl hcm
        | false => simp at hcm
      · exact Or.inr (Or.inr (hIdig c hcm))
    · cases hFq : F.isEmpty with
      | true =>
        rw [if_pos (by simp [hFq])] at hcm
        simp at hcm
      | false =>
        rw [if_neg (by simp [hFq])] at hcm
        rcases List.mem_cons.mp hcm with hcm | hcm
        · exact Or.inr (Or.inl hcm)
        · exact Or.inr (Or.inr (hFdig c hcm))
  have hproc : processedOf s = s.data := by
    unfold processedOf
    rw [jsTrim_of_no_ws, replaceFirstComma_of_no_comma]
    · intro c hcm
      rcases hchars c hcm with rfl | rfl | h
      · decide
      · decide
      · exact isDigitChar_ne_comma h
    · intro c hcm
      rcases hchars c hcm with rfl | rfl | h
      · decide
      · decide
      · exact jsWhitespaceB_of_digit h
  have hsne : s.data ≠ [] := by
    rw [hs]
    intro hq
    rcases List.append_eq_nil.mp hq with ⟨hq1, _⟩
    exact hIne (List.append_eq_nil.mp hq1).2
  have hcs : consumeSign s.data =
      (if neg then -1 else 1, I ++ (if F.isEmpty then [] else '.' :: F)) := by
    rw [hs]
    cases neg with
    | true =>
      rw [if_pos rfl, if_pos rfl]
      rw [show (['-'] ++ I ++ (if F.isEmpty then [] else '.' :: F)) =
        '-' :: (I ++ (if F.isEmpty then [] else '.' :: F)) from by simp]
      exact consumeSign_minus _
    | false =>
      rw [show ((if false = true then ['-'] else ([] : List Char)) = []) from rfl,
        show ((if false = true then (-1 : Int) else 1) = 1) from rfl, List.nil_append]
      cases hI : I with
      | nil => exact absurd hI hIne
      | cons a t =>
        have ha : isDigitChar a = true := by
          apply hIdig
          rw [hI]
          simp
        rw [List.cons_append]
        exact consumeSign_of_not_sign (isDigitChar_ne_sign ha).1 (isDigitChar_ne_sign ha).2
  have hgram : matchesNumGrammar (I ++ (if F.isEmpty then [] else '.' :: F)) = true :=
    matchesNumGrammar_canonical hIdig hFdig
  have hce : containsE (I ++ (if F.isEmpty then [] else '.' :: F)) = false := by
    apply containsE_of_no_e
    intro c hcm
    rcases List.mem_append.mp hcm with hcm | hcm
    · exact isDigitChar_ne_e (hIdig c hcm)
    · cases hFq : F.isEmpty with
      | true =>
        rw [if_pos (by simp [hFq])] at hcm
        simp at hcm
      | false =>
        rw [if_neg (by simp [hFq])] at hcm
        rcases List.mem_cons.mp hcm with rfl | hcm
        · exact ⟨by decide, by decide⟩
        · exact isDigitChar_ne_e (hFdig c hcm)
  have hnorm : normalizeToDecimalComponents (.str s) =
      .ok ⟨if neg then -1 else 1, I, F⟩ := by
    rw [normalize_str_eq, hproc, hcs]
    rw [if_neg (by simpa [List.isEmpty_iff] using hsne)]
    dsimp only
    rw [if_pos hgram, if_neg (by rw [hce]; simp), splitFirstDot_canonical hIdig hFdig]
    cases hFq : F.isEmpty with
    | true =>
      have hFe : F = [] := by simpa [List.isEmpty_iff] using hFq
      subst hFe
      rfl
    | false =>
      rfl
  rw [parseToFixedDecimal_ok hnorm,
    buildFixedDecimal_canonical hIne hIlead hFlast]
  have hrender := @fixedDecimalToStrChars_canonical neg I F hIne hIdig hIlead hFdig hFlast
  show Except.ok (fixedDecimalToStr _) = _
  unfold fixedDecimalToStr
  rw [hrender, ← hs]
  rw [show s.data.asString = s from by cases s; rfl]

/-- Witness for C1 at the canonical string `"123.45"`. -/
theorem claim_C1_round_trip_witness :
    (parseToFixedDecimal (.str "123.45")).map fixedDecimalToStr = .ok "123.45" := by
  apply claim_C1_round_trip
  refine ⟨false, ['1', '2', '3'], ['4', '5'], by decide, by decide, by decide,
    by decide, by decide, by decide, by decide⟩

end FullUtils
